import Mathlib

/-!
A small interactive shell (`shell.c`): embedding and verified properties

The C program is embedded shallowly.  A `char` buffer is a `List Char` (one
list element per byte), a C string is the run of bytes from a pointer up to the
first NUL, a pointer into the input buffer is an offset (`Nat`), and the
NULL-terminated `tokens[]` array is the list of its non-NULL entries together
with the separately returned `token_count`.  Operations whose C behaviour is
undefined (writing past a fixed-size array, dereferencing NULL, signed
overflow) return `none`.
-/

namespace Shell

/-! ## Constants -/

def COMMAND_LENGTH : Nat := 1024

def NUM_TOKENS : Nat := COMMAND_LENGTH / 2 + 1

def HISTORY_DEPTH : Nat := 10

def NUM_CMDS : Nat := 4

/-- Largest value of a C `int` (32 bit). -/
def INT_MAX : Int := 2147483647

/-- The terminator byte of C strings. -/
def NUL : Char := Char.ofNat 0

/-! ## C strings -/

/-- The C string that starts at offset `p` of the memory `mem`: the bytes up
to, and excluding, the first NUL. -/
def cstr (mem : List Char) (p : Nat) : List Char :=
  (mem.drop p).takeWhile (fun c => c != NUL)

/-- C `strnlen(mem, maxlen)`. -/
def strnlen (mem : List Char) (maxlen : Nat) : Nat :=
  ((mem.take maxlen).takeWhile (fun c => c != NUL)).length

/-- C `strcpy(dst, src)` on the memory of `dst`: the bytes of `src`, a NUL, and
the bytes of `dst` behind them untouched.  Undefined (`none`) when `src` and
its terminator do not fit `dst`. -/
def strcpy (dst src : List Char) : Option (List Char) :=
  if src.length < dst.length then some (src ++ NUL :: dst.drop (src.length + 1)) else none

/-- C `strcat(dst, src)` for a destination array of `cap` bytes that holds the
string `dst`: undefined (`none`) when the result and its terminator do not
fit. -/
def strcat (cap : Nat) (dst src : List Char) : Option (List Char) :=
  if dst.length + src.length < cap then some (dst ++ src) else none

/-! ## Tokenizer -/

/-- The three `case` labels of the tokenizer's `switch`. -/
def is_delimiter (c : Char) : Bool :=
  c == ' ' || c == '\t' || c == '\n'

/-- Variables of `tokenize_command` during its loop. -/
structure TokState where
  buff : List Char
  tokens : List Nat
  token_count : Nat
  in_token : Bool
deriving DecidableEq, Repr

/-- One pass through the body of the `for` loop of `tokenize_command`, at
index `i`. -/
def tokenize_step (st : TokState) (i : Nat) : TokState :=
  if is_delimiter (st.buff.getD i NUL) then
    { st with buff := st.buff.set i NUL, in_token := false }
  else if !st.in_token then
    { st with tokens := st.tokens ++ [i], token_count := st.token_count + 1, in_token := true }
  else st

/-- Result of `tokenize_command`: the modified buffer, the pointers stored in
`tokens[]` before the terminating NULL, and the returned count. -/
structure Tokenized where
  buff : List Char
  tokens : List Nat
  token_count : Nat
deriving DecidableEq, Repr

/-- The function `tokenize_command(buff, tokens)`. -/
def tokenize_command (buff : List Char) : Tokenized :=
  let num_chars := strnlen buff COMMAND_LENGTH
  let st := (List.range num_chars).foldl tokenize_step ⟨buff, [], 0, false⟩
  ⟨st.buff, st.tokens, st.token_count⟩

/-- The strings the token pointers denote. -/
def token_strings (buff : List Char) (tokens : List Nat) : List (List Char) :=
  tokens.map (cstr buff)

/-- Specification side of the tokenizer, following the wording "maximal runs of
characters other than space, tab and newline": split the line at every
delimiter and keep the non-empty pieces. -/
def spec_tokens (s : List Char) : List (List Char) :=
  (s.splitOnP is_delimiter).filter (fun t => !t.isEmpty)

/-- What the tokenizer writes over a byte: delimiters become NUL. -/
def zap (c : Char) : Char := if is_delimiter c then NUL else c

/-- Offsets at which the tokenizer starts a token while scanning `post` from
offset `off`, entered with the flag `in_token`. -/
def token_starts : Nat → Bool → List Char → List Nat
  | _, _, [] => []
  | off, in_token, c :: cs =>
    if is_delimiter c then token_starts (off + 1) false cs
    else if in_token then token_starts (off + 1) true cs
    else off :: token_starts (off + 1) true cs

/-! ## Program state, inputs and effects -/

/-- What the shell does to the outside world, in program order. -/
inductive Effect where
  /-- The call `write(STDOUT_FILENO, s, strlen(s))`. -/
  | write (bytes : List Char)
  /-- The call `perror(msg)`. -/
  | perror (msg : List Char)
  /-- The call `chdir(dir)`. -/
  | chdir (dir : List Char)
  /-- A successful `fork()` whose child calls `execvp(tokens[0], tokens)`. -/
  | fork_exec (argv : List (List Char))
  /-- The blocking `waitpid(var_pid, &status, 0)`. -/
  | wait_child
  /-- The loop `while (waitpid(-1, NULL, WNOHANG) > 0);`. -/
  | reap_all
deriving DecidableEq, Repr

/-- The global `history` array, one C string per slot, and the counter
`history_count` of `main`. -/
structure HistoryStore where
  history : List (List Char)
  history_count : Int
deriving DecidableEq, Repr

/-- The variables `input_buffer`, `tokens`, `token_count` and `in_background`
of `main`. -/
structure Locals where
  input_buffer : List Char
  tokens : List Nat
  token_count : Nat
  in_background : Bool
deriving DecidableEq, Repr

/-- State that survives a pass of the main loop; `cwd` is the working directory
of the process. -/
structure ShellState where
  store : HistoryStore
  previous_dir : List Char
  input_buffer : List Char
  cwd : List Char
deriving DecidableEq, Repr

/-- The operating system as the shell sees it: the home directory of the user
and the outcome of `chdir` (the new working directory when it succeeds). -/
structure Env where
  home : List Char
  chdir : List Char → List Char → Option (List Char)

/-- What one pass of the main loop receives: the bytes the final `read`
returned (`none` when it failed with an error other than `EINTR`) and whether
`fork` succeeds. -/
structure Input where
  read : Option (List Char)
  fork_ok : Bool
deriving DecidableEq, Repr

/-- Result of one pass of the main loop; `exit_status` is set when the process
ended. -/
structure Outcome where
  state : ShellState
  effects : List Effect
  exit_status : Option Int
deriving DecidableEq, Repr

/-- The state `main` starts in: zero-initialised globals, `history_count = 0`;
the contents of the local `input_buffer` are arbitrary. -/
def initial_state (input_buffer cwd : List Char) : ShellState :=
  ⟨⟨List.replicate HISTORY_DEPTH [], 0⟩, [], input_buffer, cwd⟩

/-- Two consecutive `write` calls: a message and a newline. -/
def write_line (s : String) : List Effect :=
  [Effect.write s.toList, Effect.write "\n".toList]

/-- C `getcwd(buf, COMMAND_LENGTH)`: fails when the path and its terminator do
not fit. -/
def getcwd (cwd : List Char) : Option (List Char) :=
  if cwd.length < COMMAND_LENGTH then some cwd else none

/-! ## Line reader -/

/-- The block under "Extract if running in background", which `read_command`
and `retrieve_cmd` both contain. -/
def extract_background (l : Locals) : Locals :=
  if l.token_count > 0
      ∧ cstr l.input_buffer (l.tokens.getD (l.token_count - 1) 0) = "&".toList then
    { l with in_background := true,
             tokens := l.tokens.take (l.token_count - 1),
             token_count := l.token_count - 1 }
  else l

/-- The function `read_command`, after `read` delivered `data` (at most
`COMMAND_LENGTH - 1` bytes are taken) into a buffer of `COMMAND_LENGTH` bytes
and `buff[length]` was set to NUL.  Undefined when the buffer then holds the
empty string, because `buff[strlen(buff) - 1]` reads in front of it. -/
def read_command (buff data : List Char) : Option Locals :=
  let data := data.take (COMMAND_LENGTH - 1)
  let buff := data ++ NUL :: buff.drop (data.length + 1)
  let len := (cstr buff 0).length
  if len = 0 then none
  else
    let buff := if buff.getD (len - 1) NUL = '\n' then buff.set (len - 1) NUL else buff
    let tk := tokenize_command buff
    if tk.token_count = 0 then some ⟨tk.buff, tk.tokens, 0, false⟩
    else some (extract_background ⟨tk.buff, tk.tokens, tk.token_count, false⟩)

/-! ## History store and recall -/

/-- The loop of `add_to_history` appending one more token to `str`. -/
def append_token (str tok : List Char) : Option (List Char) :=
  (strcat COMMAND_LENGTH str " ".toList).bind (fun s => strcat COMMAND_LENGTH s tok)

/-- The string `add_to_history` builds in `str`; `none` when `tokens[0]` is
NULL or `str` overflows. -/
def build_line (tokens : List (List Char)) (in_background : Bool) : Option (List Char) :=
  match tokens with
  | [] => none
  | t0 :: ts =>
    ((strcat COMMAND_LENGTH [] t0).bind (fun str => ts.foldlM append_token str)).bind
      (fun str => if in_background then strcat COMMAND_LENGTH str " &".toList else some str)

/-- The function `add_to_history`.  Undefined also for a negative counter (the
slot index would be negative) and when the increment overflows `int`. -/
def add_to_history (st : HistoryStore) (tokens : List (List Char)) (in_background : Bool) :
    Option HistoryStore :=
  (build_line tokens in_background).bind (fun str =>
    if st.history_count < 0 ∨ INT_MAX ≤ st.history_count then none
    else some ⟨st.history.set (st.history_count.toNat % HISTORY_DEPTH) str,
               st.history_count + 1⟩)

/-- Specification side of the stored line: the tokens joined with single
spaces, followed by a space and an ampersand for a background command. -/
def spec_line (tokens : List (List Char)) (in_background : Bool) : List Char :=
  " ".toList.intercalate tokens ++ (if in_background then " &".toList else [])

/-- The function `retrieve_cmd`.  Undefined for a negative index (C's
`cmd_index % HISTORY_DEPTH` is then negative) and when the slot does not fit
the buffer. -/
def retrieve_cmd (history : List (List Char)) (cmd_index : Int) (l : Locals) :
    Option (Locals × List Effect) :=
  if cmd_index < 0 then none
  else
    (strcpy l.input_buffer (history.getD (cmd_index.toNat % HISTORY_DEPTH) [])).bind
      (fun buff =>
        let tk := tokenize_command buff
        let out := if tk.token_count = 0 then write_line "Error: Command not retrieved" else []
        some (extract_background ⟨tk.buff, tk.tokens, tk.token_count, l.in_background⟩, out))

/-- The function `is_digits`. -/
def is_digits (num : List Char) : Bool := num.all Char.isDigit

/-- Value of the leading decimal digits of a string, continuing from `acc`. -/
def digits_value : Nat → List Char → Nat
  | acc, [] => acc
  | acc, c :: cs => if c.isDigit then digits_value (acc * 10 + (c.toNat - 48)) cs else acc

/-- Largest value of a C `long` (64 bit). -/
def LONG_MAX : Nat := 9223372036854775807

/-- Conversion of a non-negative value to a 32-bit `int`: reduction modulo
`2^32` into the two's-complement range. -/
def to_int (n : Nat) : Int :=
  if n % 4294967296 < 2147483648 then (n % 4294967296 : Nat) else (n % 4294967296 : Nat) - 4294967296

/-- C library `atoi` on a string without leading space or sign (the only kind
`history_select` passes), as glibc computes it, `(int) strtol(s, NULL, 10)`:
`strtol` saturates at `LONG_MAX`, the cast keeps the low 32 bits. -/
def atoi (s : List Char) : Int := to_int (min (digits_value 0 s) LONG_MAX)

/-- The function `history_select`. -/
def history_select (num : List Char) (st : HistoryStore) (l : Locals) :
    Option (Locals × List Effect) :=
  if !is_digits num || num == [] then
    some (l, write_line "Error: ! must be immediately followed by a number")
  else if st.history_count = 0 then
    some (l, write_line "Error: No previous command")
  else
    let cmd_index := atoi num
    if cmd_index < st.history_count ∧ cmd_index ≥ st.history_count - HISTORY_DEPTH then
      retrieve_cmd st.history cmd_index l
    else
      some (l, write_line "Error: History index not found")

/-- C `sprintf(count_str, "%d", n)`. -/
def sprintf_d (n : Int) : List Char :=
  if n < 0 then '-' :: Nat.toDigits 10 n.natAbs else Nat.toDigits 10 n.toNat

/-- The `for` loop of `history_cmd` with `remaining = HISTORY_DEPTH - i` passes
left. -/
def history_cmd_loop (history : List (List Char)) : Nat → Int → List Effect
  | 0, _ => []
  | remaining + 1, history_count =>
    if history_count ≥ 0 then
      [Effect.write (sprintf_d history_count), Effect.write "\t".toList,
       Effect.write (history.getD (history_count.toNat % HISTORY_DEPTH) []),
       Effect.write "\n".toList]
        ++ history_cmd_loop history remaining (history_count - 1)
    else []

/-- The function `history_cmd`. -/
def history_cmd (history : List (List Char)) (token_count : Nat) (history_count : Int) :
    List Effect :=
  if token_count > 1 then write_line "Error: history does not accept any arguments"
  else history_cmd_loop history HISTORY_DEPTH history_count

/-! ## Built-in commands -/

/-- The function `exit_cmd`: its output and, when it calls `exit`, the
status. -/
def exit_cmd (token_count : Nat) : List Effect × Option Int :=
  if token_count > 1 then (write_line "Error: exit does not accept any arguments", none)
  else (write_line "Exiting...", some 0)

/-- The function `pwd_cmd`. -/
def pwd_cmd (token_count : Nat) (cwd : List Char) : List Effect :=
  if token_count > 1 then write_line "Error: pwd does not accept any arguments"
  else
    match getcwd cwd with
    | some dir => [Effect.write dir, Effect.write "\n".toList]
    | none => write_line "Error: getcwd() error"

/-- The function `save_cwd`: the string left in the caller's array (`none`
when it stays uninitialised) and the output. -/
def save_cwd (cwd : List Char) : Option (List Char) × List Effect :=
  match getcwd cwd with
  | some dir => (some dir, [])
  | none => (none, [Effect.write "Error: save_cwd() error".toList])

/-- The function `get_home`, writing into an array of `COMMAND_LENGTH`
bytes. -/
def get_home (env : Env) : Option (List Char) := strcat COMMAND_LENGTH [] env.home

/-- The test `previous_dir == NULL` of `cd_cmd`: `previous_dir` is an array, so
its address is never NULL. -/
def previous_dir_is_null : Bool := false

/-- The target directory `cd_cmd` computes in `dir_str`, for `token_count` other
than 1 with exactly one argument `arg`; the outer `none` is undefined
behaviour, the inner `none` the "No previous directory" return. -/
def cd_target (env : Env) (previous_dir arg : List Char) : Option (Option (List Char)) :=
  if arg = "-".toList then
    if previous_dir_is_null then some none
    else (strcat COMMAND_LENGTH [] previous_dir).map some
  else if arg = "~".toList then (get_home env).map some
  else if arg.head? = some '~' then
    ((get_home env).bind (fun home => strcat COMMAND_LENGTH home (arg.drop 1))).map some
  else (strcat COMMAND_LENGTH [] arg).map some

/-- The tail of `cd_cmd` from the call of `chdir` on; `saved` is what `save_cwd`
left in the local `cwd`. -/
def cd_change (env : Env) (saved : Option (List Char)) (out : List Effect)
    (dir_str previous_dir cwd : List Char) : Option (List Char × List Char × List Effect) :=
  match env.chdir cwd dir_str with
  | some new_cwd =>
    saved.map (fun old => (old, new_cwd,
      out ++ [Effect.chdir dir_str, Effect.write "Directory changed to '".toList,
              Effect.write dir_str, Effect.write "'".toList, Effect.write "\n".toList]))
  | none =>
    some (previous_dir, cwd,
      out ++ [Effect.chdir dir_str, Effect.write "Error: Directory '".toList,
              Effect.write dir_str, Effect.write "' does not exist".toList,
              Effect.write "\n".toList])

/-- The function `cd_cmd`: the new `previous_dir`, the new working directory
and the effects. -/
def cd_cmd (env : Env) (token_count : Nat) (tokens : List (List Char))
    (previous_dir cwd : List Char) : Option (List Char × List Char × List Effect) :=
  let saved := save_cwd cwd
  if token_count = 1 then
    (get_home env).bind (fun dir_str => cd_change env saved.1 saved.2 dir_str previous_dir cwd)
  else if token_count ≠ 2 then
    some (previous_dir, cwd, saved.2 ++ write_line "Error: cd only accepts 0 or 1 arguments")
  else
    match tokens[1]? with
    | none => none
    | some arg =>
      (cd_target env previous_dir arg).bind (fun target =>
        match target with
        | none => some (previous_dir, cwd, saved.2 ++ write_line "Error: No previous directory")
        | some dir_str => cd_change env saved.1 saved.2 dir_str previous_dir cwd)

def exit_help : String := "'exit'\tis a builtin command which exits the Linux shell"

def pwd_help : String :=
  "'pwd'\tis a builtin command which displays the current working directory"

def cd_help : String :=
  "'cd'\tis a builtin command which changes the current working directory"

def help_help : String :=
  "'help'\tis a builtin command which display information about the internal commands"

def ext_help : String := "' is an external command or application"

/-- The function `help_cmd`. -/
def help_cmd (token_count : Nat) (tokens : List (List Char)) : Option (List Effect) :=
  if token_count > 2 then some (write_line "Error: help accepts only 0 or 1 arguments")
  else if token_count > 1 then
    match tokens[1]? with
    | none => none
    | some arg =>
      if arg = "exit".toList then some (write_line exit_help)
      else if arg = "pwd".toList then some (write_line pwd_help)
      else if arg = "cd".toList then some (write_line cd_help)
      else if arg = "help".toList then some (write_line help_help)
      else some [Effect.write "'".toList, Effect.write arg, Effect.write ext_help.toList,
                 Effect.write "\n".toList]
  else some ([exit_help, pwd_help, cd_help, help_help].flatMap write_line)

/-! ## Main loop -/

/-- The history-reference block of `main` (the `if` on `tokens[0][0] == '!'` and
the `else if` on `!!`). -/
def main_recall (st : HistoryStore) (l : Locals) : Option (Locals × List Effect) :=
  let tok0 := cstr l.input_buffer (l.tokens.getD 0 0)
  if tok0.getD 0 NUL = '!' ∧ tok0.getD 1 NUL ≠ '!' then
    history_select (tok0.drop 1) st l
  else if tok0 = "!!".toList then
    if st.history_count = 0 then some (l, write_line "Error: No previous command")
    else retrieve_cmd st.history (st.history_count - 1) l
  else some (l, [])

/-- The dispatch block of `main`, from the test for `exit` to the end of the
loop body; `st` already holds the updated history. -/
def main_dispatch (env : Env) (fork_ok : Bool) (st : ShellState) (token_count : Nat)
    (tokens : List (List Char)) (in_background : Bool) : Option Outcome :=
  match tokens with
  | [] => none
  | tok0 :: _ =>
    if tok0 = "exit".toList then
      some ⟨st, (exit_cmd token_count).1, (exit_cmd token_count).2⟩
    else if tok0 = "pwd".toList then
      some ⟨st, pwd_cmd token_count st.cwd, none⟩
    else if tok0 = "cd".toList then
      (cd_cmd env token_count tokens st.previous_dir st.cwd).map (fun r =>
        ⟨{ st with previous_dir := r.1, cwd := r.2.1 }, r.2.2, none⟩)
    else if tok0 = "help".toList then
      (help_cmd token_count tokens).map (fun out => ⟨st, out, none⟩)
    else if tok0 = "history".toList then
      some ⟨st, history_cmd st.store.history token_count (st.store.history_count - 1), none⟩
    else if !fork_ok then
      some ⟨st, write_line "Process Fork Failed", some 1⟩
    else
      some ⟨st, [Effect.fork_exec tokens]
                  ++ (if in_background then [] else [Effect.wait_child])
                  ++ [Effect.reap_all], none⟩

/-- One pass through the body of the `while (true)` loop of `main`. -/
def main_iteration (env : Env) (inp : Input) (st : ShellState) : Option Outcome :=
  match getcwd st.cwd with
  | none => some ⟨st, [Effect.write "Error: getcwd() error".toList], some 1⟩
  | some dir =>
    let prompt := [Effect.write dir, Effect.write "$ ".toList]
    match inp.read with
    | none =>
      some ⟨st, prompt ++ [Effect.perror
        "Unable to read command from keyboard. Terminating.\n".toList], some (-1)⟩
    | some data =>
      (read_command st.input_buffer data).bind (fun l =>
        if l.token_count > 0 then
          (main_recall st.store l).bind (fun r =>
            let l := r.1
            let notice :=
              if l.in_background then write_line "Running in background..." else []
            let tokens := token_strings l.input_buffer l.tokens
            (add_to_history st.store tokens l.in_background).bind (fun store =>
              (main_dispatch env inp.fork_ok
                  { st with store := store, input_buffer := l.input_buffer }
                  l.token_count tokens l.in_background).map (fun o =>
                { o with effects := prompt ++ r.2 ++ notice ++ o.effects })))
        else some ⟨{ st with input_buffer := l.input_buffer }, prompt, none⟩)

/-- Specification side of the trailing-ampersand extraction: a last token that
is exactly an ampersand is removed and reported as the background flag. -/
def spec_extract (ts : List (List Char)) : List (List Char) × Bool :=
  if ts.getLast? = some "&".toList then (ts.dropLast, true) else (ts, false)

/-- Specification side of the newline handling of the line reader: one final
newline is dropped. -/
def spec_strip_newline (data : List Char) : List Char :=
  if data.getLast? = some '\n' then data.dropLast else data

/-- The store before any command was recorded. -/
def empty_store : HistoryStore := ⟨List.replicate HISTORY_DEPTH [], 0⟩

/-- A sequence of calls of `add_to_history`, each with its token list and
flag. -/
def record_all (st : HistoryStore) (calls : List (List (List Char) × Bool)) :
    Option HistoryStore :=
  calls.foldlM (fun s c => add_to_history s c.1 c.2) st

/-- The four `write` calls with which `history_cmd` prints one entry. -/
def history_entry (index : Nat) (line : List Char) : List Effect :=
  [Effect.write (sprintf_d index), Effect.write "\t".toList, Effect.write line,
   Effect.write "\n".toList]

/-- A sample environment: home directory `/home/user`, every `chdir` fails. -/
def sample_env : Env := ⟨"/home/user".toList, fun _ _ => none⟩

/-- The effects that concern child processes: launching, waiting, reaping. -/
def is_child_effect : Effect → Bool
  | Effect.fork_exec _ => true
  | Effect.wait_child => true
  | Effect.reap_all => true
  | _ => false

/-- A list of effects that does not touch child processes. -/
def quiet (l : List Effect) : Prop := ∀ e ∈ l, is_child_effect e = false

/-- The first tokens `main` treats as built-in commands. -/
def builtin_names : List (List Char) :=
  ["exit".toList, "pwd".toList, "cd".toList, "help".toList, "history".toList]

/-- A command line of 1022 letters, the longest that `read` delivers together
with its newline. -/
def long_line : List Char := List.replicate 1022 'a'

/-! ## Tokenizer: proofs -/

theorem takeWhile_nul_append (s t : List Char) (hnul : ∀ c ∈ s, c ≠ NUL) :
    (s ++ t).takeWhile (fun c => c != NUL) = s ++ t.takeWhile (fun c => c != NUL) := by
  induction s with
  | nil => rfl
  | cons c cs ih =>
    have hc : c ≠ NUL := hnul c (List.mem_cons_self _ _)
    have hcs : ∀ d ∈ cs, d ≠ NUL := fun d hd => hnul d (List.mem_cons_of_mem _ hd)
    simp [List.takeWhile_cons, hc, ih hcs]

theorem strnlen_content (s rest : List Char) (n : Nat) (hnul : ∀ c ∈ s, c ≠ NUL)
    (hlen : s.length ≤ n) : strnlen (s ++ NUL :: rest) n = s.length := by
  unfold strnlen
  rw [List.take_append_eq_append_take, List.take_of_length_le hlen, takeWhile_nul_append _ _ hnul]
  cases h : n - s.length with
  | zero => simp
  | succ k => simp [List.take_succ_cons, List.takeWhile_cons]

theorem cstr_content (s rest : List Char) (hnul : ∀ c ∈ s, c ≠ NUL) :
    cstr (s ++ NUL :: rest) 0 = s := by
  unfold cstr
  rw [List.drop_zero, takeWhile_nul_append _ _ hnul]
  simp [List.takeWhile_cons]

theorem getD_at_length (X Y : List Char) (c d : Char) :
    (X ++ c :: Y).getD X.length d = c := by
  induction X with
  | nil => rfl
  | cons x xs ih => simpa [List.getD_cons_succ] using ih

theorem set_at_length (X Y : List Char) (c d : Char) :
    (X ++ c :: Y).set X.length d = X ++ d :: Y := by
  induction X with
  | nil => rfl
  | cons x xs ih => simp [List.set_cons_succ, ih]

theorem tokenize_step_delim (X Y : List Char) (c : Char) (toks : List Nat) (cnt : Nat)
    (inTok : Bool) (hd : is_delimiter c = true) :
    tokenize_step ⟨X ++ c :: Y, toks, cnt, inTok⟩ X.length
      = ⟨(X ++ [NUL]) ++ Y, toks, cnt, false⟩ := by
  unfold tokenize_step
  simp only [getD_at_length, set_at_length, hd, if_true]
  simp

theorem tokenize_step_inside (X Y : List Char) (c : Char) (toks : List Nat) (cnt : Nat)
    (hd : is_delimiter c = false) :
    tokenize_step ⟨X ++ c :: Y, toks, cnt, true⟩ X.length
      = ⟨(X ++ [c]) ++ Y, toks, cnt, true⟩ := by
  unfold tokenize_step
  simp only [getD_at_length, hd]
  simp

theorem tokenize_step_start (X Y : List Char) (c : Char) (toks : List Nat) (cnt : Nat)
    (hd : is_delimiter c = false) :
    tokenize_step ⟨X ++ c :: Y, toks, cnt, false⟩ X.length
      = ⟨(X ++ [c]) ++ Y, toks ++ [X.length], cnt + 1, true⟩ := by
  unfold tokenize_step
  simp only [getD_at_length, hd]
  simp

theorem tokenize_fold (tl : List Char) :
    ∀ (post X : List Char) (toks : List Nat) (cnt : Nat) (inTok : Bool),
      ∃ b, (List.range' X.length post.length).foldl tokenize_step ⟨X ++ (post ++ tl), toks, cnt, inTok⟩
        = ⟨X ++ (post.map zap ++ tl), toks ++ token_starts X.length inTok post,
            cnt + (token_starts X.length inTok post).length, b⟩ := by
  intro post
  induction post with
  | nil => intro X toks cnt inTok; exact ⟨inTok, by simp [token_starts]⟩
  | cons c cs ih =>
    intro X toks cnt inTok
    rw [List.length_cons, List.range'_succ, List.foldl_cons, List.cons_append]
    by_cases hd : is_delimiter c = true
    · obtain ⟨b, hb⟩ := ih (X ++ [NUL]) toks cnt false
      refine ⟨b, ?_⟩
      rw [tokenize_step_delim _ _ _ _ _ _ hd]
      simp only [List.length_append, List.length_singleton, List.append_assoc] at hb
      rw [List.append_assoc, hb]
      simp [token_starts, hd, zap]
    · have hd' : is_delimiter c = false := by simpa using hd
      cases inTok with
      | true =>
        obtain ⟨b, hb⟩ := ih (X ++ [c]) toks cnt true
        refine ⟨b, ?_⟩
        rw [tokenize_step_inside _ _ _ _ _ hd']
        simp only [List.length_append, List.length_singleton, List.append_assoc] at hb
        rw [List.append_assoc, hb]
        simp [token_starts, hd', zap]
      | false =>
        obtain ⟨b, hb⟩ := ih (X ++ [c]) (toks ++ [X.length]) (cnt + 1) true
        refine ⟨b, ?_⟩
        rw [tokenize_step_start _ _ _ _ _ hd']
        simp only [List.length_append, List.length_singleton, List.append_assoc] at hb
        rw [List.append_assoc, hb]
        simp [token_starts, hd', zap]
        omega

theorem cstr_zapped (X post tl : List Char) (hnul : ∀ c ∈ post, c ≠ NUL) :
    cstr (X ++ (post.map zap ++ NUL :: tl)) X.length
      = post.takeWhile (fun c => !is_delimiter c) := by
  unfold cstr
  rw [List.drop_left]
  induction post with
  | nil => simp [List.takeWhile_cons]
  | cons c cs ih =>
    have hc : c ≠ NUL := hnul c (List.mem_cons_self _ _)
    have hcs : ∀ d ∈ cs, d ≠ NUL := fun d hd => hnul d (List.mem_cons_of_mem _ hd)
    by_cases hd : is_delimiter c = true
    · simp [List.takeWhile_cons, zap, hd]
    · have hd' : is_delimiter c = false := by simpa using hd
      simp [List.takeWhile_cons, zap, hd', hc, ih hcs]

theorem splitOnP_head (p : Char → Bool) (cs : List Char) :
    ∃ t, cs.splitOnP p = cs.takeWhile (fun c => !p c) :: t := by
  induction cs with
  | nil => exact ⟨[], by simp⟩
  | cons c cs ih =>
    obtain ⟨t, ht⟩ := ih
    rw [List.splitOnP_cons]
    by_cases hp : p c = true
    · exact ⟨cs.splitOnP p, by simp [hp, List.takeWhile_cons]⟩
    · have hp' : p c = false := by simpa using hp
      exact ⟨t, by simp [hp', ht, List.takeWhile_cons, List.modifyHead]⟩

/-- The pieces the scan still owes, given whether it is inside a token. -/
theorem token_strings_starts (tl : List Char) :
    ∀ (post X : List Char) (inTok : Bool), (∀ c ∈ post, c ≠ NUL) →
      (token_starts X.length inTok post).map (cstr (X ++ (post.map zap ++ NUL :: tl)))
        = if inTok then ((post.splitOnP is_delimiter).tail).filter (fun t => !t.isEmpty)
          else (post.splitOnP is_delimiter).filter (fun t => !t.isEmpty) := by
  intro post
  induction post with
  | nil => intro X inTok _; cases inTok <;> simp [token_starts]
  | cons c cs ih =>
    intro X inTok hnul
    have hc : c ≠ NUL := hnul c (List.mem_cons_self _ _)
    have hcs : ∀ d ∈ cs, d ≠ NUL := fun d hd => hnul d (List.mem_cons_of_mem _ hd)
    have hbuf : X ++ ((c :: cs).map zap ++ NUL :: tl)
        = (X ++ [zap c]) ++ (cs.map zap ++ NUL :: tl) := by simp
    have hlen : (X ++ [zap c]).length = X.length + 1 := by simp
    obtain ⟨t, ht⟩ := splitOnP_head is_delimiter cs
    have h0 := cstr_zapped X (c :: cs) tl hnul
    by_cases hd : is_delimiter c = true
    · have h := ih (X ++ [zap c]) false hcs
      rw [hlen, ← hbuf] at h
      generalize X ++ (List.map zap (c :: cs) ++ NUL :: tl) = B at h h0 ⊢
      cases inTok <;> simp [token_starts, hd, List.splitOnP_cons, h]
    · have hd' : is_delimiter c = false := by simpa using hd
      have h := ih (X ++ [zap c]) true hcs
      rw [hlen, ← hbuf] at h
      generalize X ++ (List.map zap (c :: cs) ++ NUL :: tl) = B at h h0 ⊢
      cases inTok with
      | true => simp [token_starts, hd', List.splitOnP_cons, h, ht, List.modifyHead]
      | false =>
        rw [ht] at h
        simp only [if_true, List.tail_cons] at h
        simp [token_starts, hd', h0, h, List.splitOnP_cons, ht, List.modifyHead,
          List.takeWhile_cons]

theorem tokenize_command_content (s rest : List Char) (hnul : ∀ c ∈ s, c ≠ NUL)
    (hlen : s.length < COMMAND_LENGTH) :
    tokenize_command (s ++ NUL :: rest)
      = ⟨s.map zap ++ NUL :: rest, token_starts 0 false s, (token_starts 0 false s).length⟩ := by
  unfold tokenize_command
  obtain ⟨b, hb⟩ := tokenize_fold (NUL :: rest) s [] [] 0 false
  simp only [List.length_nil, List.nil_append, Nat.zero_add] at hb
  simp only [strnlen_content s rest COMMAND_LENGTH hnul (Nat.le_of_lt hlen), List.range_eq_range', hb]

theorem token_strings_tokenize (s rest : List Char) (hnul : ∀ c ∈ s, c ≠ NUL)
    (hlen : s.length < COMMAND_LENGTH) :
    token_strings (tokenize_command (s ++ NUL :: rest)).buff
      (tokenize_command (s ++ NUL :: rest)).tokens = spec_tokens s := by
  rw [tokenize_command_content s rest hnul hlen]
  have h := token_strings_starts rest s [] false hnul
  simpa [token_strings, spec_tokens] using h

theorem token_count_tokenize (s rest : List Char) (hnul : ∀ c ∈ s, c ≠ NUL)
    (hlen : s.length < COMMAND_LENGTH) :
    (tokenize_command (s ++ NUL :: rest)).token_count = (spec_tokens s).length := by
  rw [← token_strings_tokenize s rest hnul hlen, tokenize_command_content s rest hnul hlen]
  simp [token_strings]

theorem splitOnP_mem_free (p : Char → Bool) (s : List Char) :
    ∀ t ∈ s.splitOnP p, ∀ c ∈ t, p c = false := by
  induction s with
  | nil => intro t ht c hc; simp at ht; subst ht; simp at hc
  | cons x xs ih =>
    intro t ht c hc
    rw [List.splitOnP_cons] at ht
    by_cases hp : p x = true
    · simp only [hp, if_true, List.mem_cons] at ht
      rcases ht with ht | ht
      · subst ht; simp at hc
      · exact ih t ht c hc
    · have hp' : p x = false := by simpa using hp
      cases hsplit : xs.splitOnP p with
      | nil => exact absurd hsplit (List.splitOnP_ne_nil _ _)
      | cons h tl =>
        rw [hsplit] at ht ih
        simp only [hp', List.modifyHead] at ht
        rcases List.mem_cons.mp ht with heq | hmem
        · rw [heq] at hc
          rcases List.mem_cons.mp hc with hc | hc
          · rw [hc]; exact hp'
          · exact ih h (List.mem_cons_self _ _) c hc
        · exact ih t (List.mem_cons_of_mem _ hmem) c hc

theorem spec_tokens_mem (s t : List Char) (ht : t ∈ spec_tokens s) :
    t ≠ [] ∧ ∀ c ∈ t, is_delimiter c = false := by
  unfold spec_tokens at ht
  rw [List.mem_filter] at ht
  refine ⟨?_, splitOnP_mem_free is_delimiter s t ht.1⟩
  intro h
  subst h
  simp at ht

theorem spec_tokens_cons_delim (c : Char) (s : List Char) (hd : is_delimiter c = true) :
    spec_tokens (c :: s) = spec_tokens s := by
  simp [spec_tokens, List.splitOnP_cons, hd]

theorem spec_tokens_cons_char (c : Char) (s : List Char) (hd : is_delimiter c = false) :
    ∃ t, spec_tokens (c :: s)
      = (c :: s.takeWhile (fun d => !is_delimiter d)) :: t := by
  obtain ⟨t, ht⟩ := splitOnP_head is_delimiter s
  exact ⟨t.filter (fun t => !t.isEmpty),
    by simp [spec_tokens, List.splitOnP_cons, hd, ht, List.modifyHead]⟩

theorem spec_tokens_eq_nil_iff (s : List Char) :
    spec_tokens s = [] ↔ ∀ c ∈ s, is_delimiter c = true := by
  induction s with
  | nil => simp [spec_tokens]
  | cons c cs ih =>
    by_cases hd : is_delimiter c = true
    · rw [spec_tokens_cons_delim c cs hd, ih]
      simp [hd]
    · have hd' : is_delimiter c = false := by simpa using hd
      obtain ⟨t, ht⟩ := spec_tokens_cons_char c cs hd'
      simp [ht, hd']

/-! ## History store: proofs -/

theorem intercalate_space (t0 : List Char) (ts : List (List Char)) :
    [' '].intercalate (t0 :: ts) = t0 ++ ts.flatMap (fun t => ' ' :: t) := by
  induction ts generalizing t0 with
  | nil => simp [List.intercalate]
  | cons t1 ts ih =>
    have h := ih t1
    simp only [List.intercalate, List.intersperse_cons_cons, List.flatten_cons] at h ⊢
    rw [h]
    simp [List.flatMap_cons]

theorem spec_line_cons (t0 : List Char) (ts : List (List Char)) (b : Bool) :
    spec_line (t0 :: ts) b
      = t0 ++ ts.flatMap (fun t => ' ' :: t) ++ (if b then [' ', '&'] else []) := by
  unfold spec_line
  have h1 : " ".toList = [' '] := rfl
  have h2 : " &".toList = [' ', '&'] := rfl
  rw [h1, h2, intercalate_space]

theorem foldlM_append_token (ts : List (List Char)) :
    ∀ str : List Char, str.length < COMMAND_LENGTH → ts.foldlM append_token str
      = if (str ++ ts.flatMap (fun t => ' ' :: t)).length < COMMAND_LENGTH
        then some (str ++ ts.flatMap (fun t => ' ' :: t)) else none := by
  induction ts with
  | nil =>
    intro str hstr
    simp [hstr]
  | cons t ts ih =>
    intro str hstr
    have hsp : " ".toList = [' '] := rfl
    have hmono : (str ++ ' ' :: t).length
        ≤ (str ++ (t :: ts).flatMap (fun t => ' ' :: t)).length := by
      simp only [List.flatMap_cons, List.length_append, List.length_cons]
      omega
    rw [List.foldlM_cons]
    by_cases h1 : (str ++ ' ' :: t).length < COMMAND_LENGTH
    · have h0 : str.length + 1 < COMMAND_LENGTH := by
        simp only [List.length_append, List.length_cons] at h1; omega
      have h1' : str.length + 1 + t.length < COMMAND_LENGTH := by
        simp only [List.length_append, List.length_cons] at h1; omega
      have hstep : append_token str t = some (str ++ ' ' :: t) := by
        simp [append_token, strcat, hsp, h0, h1']
      rw [hstep]
      simp only [Option.bind_eq_bind, Option.some_bind]
      rw [ih _ h1]
      simp [List.flatMap_cons]
    · have hstep : append_token str t = none := by
        simp only [List.length_append, List.length_cons] at h1
        by_cases h0 : str.length + 1 < COMMAND_LENGTH
        · have h1' : ¬ (str.length + 1 + t.length < COMMAND_LENGTH) := by omega
          simp [append_token, strcat, hsp, h0, h1']
        · simp [append_token, strcat, hsp, h0]
      rw [hstep]
      have h2 : ¬ (str ++ (t :: ts).flatMap (fun t => ' ' :: t)).length < COMMAND_LENGTH := by
        omega
      rw [if_neg h2]
      rfl

theorem build_line_eq (t0 : List Char) (ts : List (List Char)) (b : Bool) :
    build_line (t0 :: ts) b
      = if (spec_line (t0 :: ts) b).length < COMMAND_LENGTH
        then some (spec_line (t0 :: ts) b) else none := by
  have hamp : " &".toList = [' ', '&'] := rfl
  rw [spec_line_cons]
  simp only [build_line]
  by_cases h0 : t0.length < COMMAND_LENGTH
  · have hcpy : strcat COMMAND_LENGTH [] t0 = some t0 := by simp [strcat, h0]
    rw [hcpy, Option.some_bind, foldlM_append_token ts t0 h0]
    by_cases h1 : (t0 ++ ts.flatMap (fun t => ' ' :: t)).length < COMMAND_LENGTH
    · rw [if_pos h1, Option.some_bind]
      cases b with
      | false =>
        simp only [Bool.false_eq_true, if_false, List.append_nil, if_pos h1]
      | true =>
        simp only [if_true, strcat, hamp, List.length_append, List.length_cons,
          List.length_nil]
    · rw [if_neg h1, Option.none_bind]
      have h2 : ¬ (t0 ++ ts.flatMap (fun t => ' ' :: t)
          ++ (if b then [' ', '&'] else [])).length < COMMAND_LENGTH := by
        simp only [List.length_append] at h1 ⊢
        omega
      rw [if_neg h2]
  · have hcpy : strcat COMMAND_LENGTH [] t0 = none := by simp [strcat, h0]
    rw [hcpy, Option.none_bind, Option.none_bind]
    have h2 : ¬ (t0 ++ ts.flatMap (fun t => ' ' :: t)
        ++ (if b then [' ', '&'] else [])).length < COMMAND_LENGTH := by
      simp only [List.length_append] at h0 ⊢
      omega
    rw [if_neg h2]

theorem add_to_history_eq (st : HistoryStore) (t : List (List Char)) (b : Bool)
    (hne : t ≠ []) (hfit : (spec_line t b).length < COMMAND_LENGTH)
    (hlo : 0 ≤ st.history_count) (hhi : st.history_count < INT_MAX) :
    add_to_history st t b
      = some ⟨st.history.set (st.history_count.toNat % HISTORY_DEPTH) (spec_line t b),
              st.history_count + 1⟩ := by
  cases t with
  | nil => exact absurd rfl hne
  | cons t0 ts =>
    unfold add_to_history
    rw [build_line_eq, if_pos hfit, Option.some_bind]
    have h : ¬ (st.history_count < 0 ∨ INT_MAX ≤ st.history_count) := by omega
    rw [if_neg h]

/-! ## Trailing ampersand and recall: proofs -/

theorem extract_background_eq (l : Locals) (hcount : l.token_count = l.tokens.length) :
    extract_background l
      = if (token_strings l.input_buffer l.tokens).getLast? = some "&".toList then
          { l with in_background := true,
                   tokens := l.tokens.dropLast,
                   token_count := l.token_count - 1 }
        else l := by
  unfold extract_background
  rcases List.eq_nil_or_concat l.tokens with hnil | ⟨init, x, hx⟩
  · simp [hcount, hnil, token_strings]
  · have hlen : l.token_count - 1 = init.length := by simp [hcount, hx]
    have hpos : l.token_count > 0 := by simp [hcount, hx]
    have hget : l.tokens.getD (l.token_count - 1) 0 = x := by
      rw [hlen, hx]
      simp [List.getD_eq_getElem?_getD]
    have hlast : (token_strings l.input_buffer l.tokens).getLast? = some (cstr l.input_buffer x) := by
      simp [token_strings, hx]
    have htake : l.tokens.take (l.token_count - 1) = l.tokens.dropLast := by
      rw [hlen, hx]
      simp
    rw [hget, hlast, htake]
    simp [hpos]

/-- The token strings, count and flag left by the extraction block in terms of
the specification-side extraction. -/
theorem extract_background_spec (l : Locals) (hcount : l.token_count = l.tokens.length) :
    token_strings (extract_background l).input_buffer (extract_background l).tokens
        = (spec_extract (token_strings l.input_buffer l.tokens)).1
    ∧ (extract_background l).token_count
        = (spec_extract (token_strings l.input_buffer l.tokens)).1.length
    ∧ (extract_background l).in_background
        = (l.in_background || (spec_extract (token_strings l.input_buffer l.tokens)).2)
    ∧ (extract_background l).input_buffer = l.input_buffer := by
  rw [extract_background_eq l hcount]
  unfold spec_extract
  by_cases h : (token_strings l.input_buffer l.tokens).getLast? = some "&".toList
  · simp only [if_pos h]
    refine ⟨?_, ?_, by simp, trivial⟩
    · simp [token_strings, List.map_dropLast]
    · simp [token_strings, hcount]
  · simp only [if_neg h]
    refine ⟨trivial, ?_, by simp, trivial⟩
    simp [token_strings, hcount]

theorem tokenize_tokens_length (s rest : List Char) (hnul : ∀ c ∈ s, c ≠ NUL)
    (hlen : s.length < COMMAND_LENGTH) :
    (tokenize_command (s ++ NUL :: rest)).token_count
      = (tokenize_command (s ++ NUL :: rest)).tokens.length := by
  rw [tokenize_command_content s rest hnul hlen]

theorem strcpy_eq (dst src : List Char) (h : src.length < dst.length) :
    strcpy dst src = some (src ++ NUL :: dst.drop (src.length + 1)) := by
  simp [strcpy, h]

/-- What `retrieve_cmd` leaves when the addressed slot holds `line`. -/
theorem retrieve_cmd_line (history : List (List Char)) (idx : Int) (l : Locals)
    (line : List Char) (hidx : 0 ≤ idx)
    (hslot : history.getD (idx.toNat % HISTORY_DEPTH) [] = line)
    (hnul : ∀ c ∈ line, c ≠ NUL) (hlen : line.length < COMMAND_LENGTH)
    (hbuf : l.input_buffer.length = COMMAND_LENGTH) :
    ∃ r, retrieve_cmd history idx l = some r
      ∧ token_strings r.1.input_buffer r.1.tokens = (spec_extract (spec_tokens line)).1
      ∧ r.1.token_count = (spec_extract (spec_tokens line)).1.length
      ∧ r.1.in_background = (l.in_background || (spec_extract (spec_tokens line)).2)
      ∧ r.2 = (if spec_tokens line = [] then write_line "Error: Command not retrieved" else []) := by
  have hcpy := strcpy_eq l.input_buffer line (by rw [hbuf]; exact hlen)
  have hneg : ¬ idx < 0 := by omega
  unfold retrieve_cmd
  rw [if_neg hneg, hslot, hcpy, Option.some_bind]
  refine ⟨_, rfl, ?_⟩
  generalize l.input_buffer.drop (line.length + 1) = rest
  have hc := tokenize_tokens_length line rest hnul hlen
  have hs := token_strings_tokenize line rest hnul hlen
  have hn := token_count_tokenize line rest hnul hlen
  have he := extract_background_spec
    ⟨(tokenize_command (line ++ NUL :: rest)).buff, (tokenize_command (line ++ NUL :: rest)).tokens,
      (tokenize_command (line ++ NUL :: rest)).token_count, l.in_background⟩ hc
  simp only [hs] at he
  refine ⟨he.1, he.2.1, he.2.2.1, ?_⟩
  simp only [hn, List.length_eq_zero]

theorem spec_tokens_joined (ts : List (List Char)) :
    ∀ t0 : List Char, (∀ tok ∈ t0 :: ts, tok ≠ [] ∧ ∀ c ∈ tok, is_delimiter c = false) →
      spec_tokens (t0 ++ ts.flatMap (fun t => ' ' :: t)) = t0 :: ts := by
  induction ts with
  | nil =>
    intro t0 h
    have h0 := h t0 (List.mem_cons_self _ _)
    have hfree : ∀ x ∈ t0, ¬ is_delimiter x = true := fun x hx => by simp [h0.2 x hx]
    have hne : t0 ≠ [] := h0.1
    simp [spec_tokens, List.splitOnP_eq_single is_delimiter t0 hfree, hne]
  | cons t1 ts ih =>
    intro t0 h
    have h0 := h t0 (List.mem_cons_self _ _)
    have hfree : ∀ x ∈ t0, ¬ is_delimiter x = true := fun x hx => by simp [h0.2 x hx]
    have hne : t0 ≠ [] := h0.1
    have hrest := ih t1 (fun tok htok => h tok (List.mem_cons_of_mem _ htok))
    have hsplit := List.splitOnP_first is_delimiter t0 hfree ' ' (by decide)
      (t1 ++ ts.flatMap (fun t => ' ' :: t))
    unfold spec_tokens at hrest ⊢
    simp only [List.flatMap_cons, List.cons_append]
    rw [hsplit, List.filter_cons, hrest]
    simp [hne]

theorem spec_tokens_spec_line (t : List (List Char)) (b : Bool) (hne : t ≠ [])
    (htok : ∀ tok ∈ t, tok ≠ [] ∧ ∀ c ∈ tok, is_delimiter c = false) :
    spec_tokens (spec_line t b) = t ++ (if b then ["&".toList] else []) := by
  have hamp : "&".toList = ['&'] := rfl
  cases t with
  | nil => exact absurd rfl hne
  | cons t0 ts =>
    rw [spec_line_cons]
    cases b with
    | false =>
      simp only [Bool.false_eq_true, if_false, List.append_nil]
      exact spec_tokens_joined ts t0 htok
    | true =>
      have h := spec_tokens_joined (ts ++ [['&']]) t0 (by
        intro tok hmem
        rcases List.mem_cons.mp hmem with h0 | h1
        · exact htok tok (by rw [h0]; exact List.mem_cons_self _ _)
        · rcases List.mem_append.mp h1 with h2 | h3
          · exact htok tok (List.mem_cons_of_mem _ h2)
          · rw [List.mem_singleton.mp h3]
            decide)
      simp only [if_true, hamp]
      simpa [List.flatMap_append] using h

theorem amp_suffix_nul_free (c : Char) (h : c ∈ [' ', '&']) : c ≠ NUL := by
  rcases List.mem_cons.mp h with h | h
  · rw [h]; decide
  · rw [List.mem_singleton.mp h]; decide

theorem spec_line_nul_free (t : List (List Char)) (b : Bool)
    (htok : ∀ tok ∈ t, ∀ c ∈ tok, c ≠ NUL) : ∀ c ∈ spec_line t b, c ≠ NUL := by
  cases t with
  | nil =>
    intro c hc
    cases b with
    | false =>
      have h : spec_line [] false = [] := rfl
      rw [h] at hc
      simp at hc
    | true =>
      have h : spec_line [] true = [' ', '&'] := rfl
      rw [h] at hc
      exact amp_suffix_nul_free c hc
  | cons t0 ts =>
    rw [spec_line_cons]
    intro c hc
    rcases List.mem_append.mp hc with h1 | h2
    · rcases List.mem_append.mp h1 with h3 | h4
      · exact htok t0 (List.mem_cons_self _ _) c h3
      · rw [List.mem_flatMap] at h4
        obtain ⟨tok, hmem, hc1⟩ := h4
        rcases List.mem_cons.mp hc1 with h5 | h6
        · rw [h5]; decide
        · exact htok tok (List.mem_cons_of_mem _ hmem) c h6
    · cases b with
      | false => simp at h2
      | true =>
        simp only [if_true] at h2
        exact amp_suffix_nul_free c h2

theorem spec_extract_append_amp (t : List (List Char)) :
    spec_extract (t ++ ["&".toList]) = (t, true) := by
  simp [spec_extract]

theorem getD_set_self (h : List (List Char)) (i : Nat) (x : List Char) (hi : i < h.length) :
    (h.set i x).getD i [] = x := by
  simp [List.getD_eq_getElem?_getD, hi]

theorem getD_set_other (h : List (List Char)) (i j : Nat) (x : List Char) (hij : i ≠ j) :
    (h.set i x).getD j [] = h.getD j [] := by
  simp [List.getD_eq_getElem?_getD, List.getElem?_set_ne hij]

theorem toNat_mod_depth (c : Int) : c.toNat % HISTORY_DEPTH < HISTORY_DEPTH :=
  Nat.mod_lt _ (by decide)

/-! ## Line reader: proofs -/

/-- What `read_command` leaves for a non-empty NUL-free input of at most
`COMMAND_LENGTH - 1` bytes. -/
theorem read_command_spec (buff data : List Char) (hne : data ≠ [])
    (hnul : ∀ c ∈ data, c ≠ NUL) (hlen : data.length ≤ COMMAND_LENGTH - 1) :
    ∃ l, read_command buff data = some l
      ∧ token_strings l.input_buffer l.tokens
          = (spec_extract (spec_tokens (spec_strip_newline data))).1
      ∧ l.token_count = (spec_extract (spec_tokens (spec_strip_newline data))).1.length
      ∧ l.in_background = (spec_extract (spec_tokens (spec_strip_newline data))).2 := by
  have htake : data.take (COMMAND_LENGTH - 1) = data := List.take_of_length_le hlen
  have key : ∀ (line rest : List Char), (∀ c ∈ line, c ≠ NUL) → line.length < COMMAND_LENGTH →
      ∃ l, (if (tokenize_command (line ++ NUL :: rest)).token_count = 0 then
              some (⟨(tokenize_command (line ++ NUL :: rest)).buff,
                (tokenize_command (line ++ NUL :: rest)).tokens, 0, false⟩ : Locals)
            else some (extract_background ⟨(tokenize_command (line ++ NUL :: rest)).buff,
                (tokenize_command (line ++ NUL :: rest)).tokens,
                (tokenize_command (line ++ NUL :: rest)).token_count, false⟩)) = some l
        ∧ token_strings l.input_buffer l.tokens = (spec_extract (spec_tokens line)).1
        ∧ l.token_count = (spec_extract (spec_tokens line)).1.length
        ∧ l.in_background = (spec_extract (spec_tokens line)).2 := by
    intro line rest hn hl
    have hc := tokenize_tokens_length line rest hn hl
    have hs := token_strings_tokenize line rest hn hl
    have hk := token_count_tokenize line rest hn hl
    by_cases h0 : (tokenize_command (line ++ NUL :: rest)).token_count = 0
    · rw [if_pos h0]
      refine ⟨_, rfl, ?_⟩
      have hnil : spec_tokens line = [] := by
        rw [h0] at hk
        exact List.length_eq_zero.mp hk.symm
      simp only [hs, hnil]
      simp [spec_extract]
    · rw [if_neg h0]
      refine ⟨_, rfl, ?_⟩
      have he := extract_background_spec
        ⟨(tokenize_command (line ++ NUL :: rest)).buff,
          (tokenize_command (line ++ NUL :: rest)).tokens,
          (tokenize_command (line ++ NUL :: rest)).token_count, false⟩ hc
      simp only [hs, Bool.false_or] at he
      exact ⟨he.1, he.2.1, he.2.2.1⟩
  unfold read_command
  simp only [htake]
  generalize buff.drop (data.length + 1) = rest
  have hcontent : cstr (data ++ NUL :: rest) 0 = data := cstr_content data rest hnul
  have hlen0 : ¬ data.length = 0 := fun h => hne (List.length_eq_zero.mp h)
  rw [hcontent, if_neg hlen0]
  rcases List.eq_nil_or_concat data with hnil | ⟨init, x, hx⟩
  · exact absurd hnil hne
  · have hinit : ∀ c ∈ init, c ≠ NUL := fun c hc => hnul c (by rw [hx]; simp [hc])
    have hil : init.length < COMMAND_LENGTH := by
      have : data.length = init.length + 1 := by rw [hx]; simp
      omega
    have hdl : data.length < COMMAND_LENGTH := by
      have : data.length = init.length + 1 := by rw [hx]; simp
      have hpos : 0 < COMMAND_LENGTH := by decide
      omega
    have hform : data ++ NUL :: rest = init ++ x :: NUL :: rest := by rw [hx]; simp
    have hidx : data.length - 1 = init.length := by rw [hx]; simp
    have hget : (data ++ NUL :: rest).getD (data.length - 1) NUL = x := by
      rw [hform, hidx, getD_at_length]
    have hset : (data ++ NUL :: rest).set (data.length - 1) NUL = init ++ NUL :: NUL :: rest := by
      rw [hform, hidx, set_at_length]
    rw [hget, hset]
    by_cases hnl : x = '\n'
    · have hstrip : spec_strip_newline data = init := by
        unfold spec_strip_newline
        rw [hx]
        simp [hnl]
      rw [if_pos hnl, hstrip]
      exact key init (NUL :: rest) hinit hil
    · have hstrip : spec_strip_newline data = data := by
        unfold spec_strip_newline
        rw [hx]
        simp [hnl]
      rw [if_neg hnl, hstrip]
      exact key data rest hnul hdl

/-! ## History references: proofs -/

theorem is_digits_iff (num : List Char) :
    is_digits num = true ↔ ∀ c ∈ num, c.isDigit = true := by
  simp [is_digits, List.all_eq_true]

theorem atoi_of_small (num : List Char) (h : (digits_value 0 num : Int) ≤ INT_MAX) :
    atoi num = (digits_value 0 num : Int) := by
  unfold INT_MAX at h
  unfold atoi to_int LONG_MAX
  have h1 : min (digits_value 0 num) 9223372036854775807 = digits_value 0 num := by omega
  have h2 : digits_value 0 num % 4294967296 = digits_value 0 num := by omega
  rw [h1, h2]
  have h3 : digits_value 0 num < 2147483648 := by omega
  rw [if_pos h3]

theorem retrieve_cmd_output (history : List (List Char)) (idx : Int) (l : Locals)
    (r : Locals × List Effect) (h : retrieve_cmd history idx l = some r) :
    r.2 = [] ∨ r.2 = write_line "Error: Command not retrieved" := by
  unfold retrieve_cmd at h
  by_cases hneg : idx < 0
  · rw [if_pos hneg] at h; exact absurd h (by simp)
  · rw [if_neg hneg] at h
    cases hcpy : strcpy l.input_buffer (history.getD (idx.toNat % HISTORY_DEPTH) []) with
    | none => rw [hcpy] at h; exact absurd h (by simp)
    | some buff =>
      rw [hcpy, Option.some_bind] at h
      simp only [Option.some.injEq] at h
      rw [← h]
      by_cases h0 : (tokenize_command buff).token_count = 0
      · right; simp [h0]
      · left; simp [h0]

theorem history_select_malformed (num : List Char) (st : HistoryStore) (l : Locals)
    (h : num = [] ∨ ∃ c ∈ num, c.isDigit = false) :
    history_select num st l
      = some (l, write_line "Error: ! must be immediately followed by a number") := by
  have hcond : (!is_digits num || num == []) = true := by
    rcases h with h | ⟨c, hc, hd⟩
    · simp [h]
    · have : is_digits num = false := by
        cases hdig : is_digits num with
        | false => rfl
        | true =>
          have := (is_digits_iff num).mp hdig c hc
          rw [hd] at this
          exact absurd this (by simp)
      simp [this]
  unfold history_select
  rw [if_pos hcond]

theorem history_select_digits (num : List Char) (st : HistoryStore) (l : Locals)
    (hne : num ≠ []) (hdig : ∀ c ∈ num, c.isDigit = true) :
    history_select num st l
      = if st.history_count = 0 then some (l, write_line "Error: No previous command")
        else if atoi num < st.history_count ∧ atoi num ≥ st.history_count - HISTORY_DEPTH then
          retrieve_cmd st.history (atoi num) l
        else some (l, write_line "Error: History index not found") := by
  have hcond : ¬ (!is_digits num || num == []) = true := by
    have h1 : is_digits num = true := (is_digits_iff num).mpr hdig
    simp [h1, hne]
  unfold history_select
  rw [if_neg hcond]

/-! ## Decimal printing and parsing: proofs -/

theorem digitChar_spec : ∀ k, k < 10 →
    (Nat.digitChar k).isDigit = true ∧ (Nat.digitChar k).toNat - 48 = k := by
  decide

theorem digits_value_append (xs ys : List Char) (hxs : ∀ c ∈ xs, c.isDigit = true) :
    ∀ acc, digits_value acc (xs ++ ys) = digits_value (digits_value acc xs) ys := by
  induction xs with
  | nil => intro acc; rfl
  | cons x xs ih =>
    intro acc
    have hx : x.isDigit = true := hxs x (List.mem_cons_self _ _)
    have hrest : ∀ c ∈ xs, c.isDigit = true := fun c hc => hxs c (List.mem_cons_of_mem _ hc)
    simp only [List.cons_append, digits_value, hx, if_true]
    exact ih hrest _

theorem toDigitsCore_spec : ∀ (fuel n : Nat) (ds : List Char), n < fuel →
    ∃ pre, Nat.toDigitsCore 10 fuel n ds = pre ++ ds ∧ pre ≠ []
      ∧ (∀ c ∈ pre, c.isDigit = true) ∧ digits_value 0 pre = n := by
  intro fuel
  induction fuel with
  | zero => intro n ds h; omega
  | succ fuel ih =>
    intro n ds hn
    have hd := digitChar_spec (n % 10) (Nat.mod_lt _ (by decide))
    by_cases h0 : n / 10 = 0
    · refine ⟨[Nat.digitChar (n % 10)], by simp [Nat.toDigitsCore, h0], by simp, ?_, ?_⟩
      · intro c hc
        rw [List.mem_singleton.mp hc]
        exact hd.1
      · simp only [digits_value, hd.1, if_true, hd.2]
        omega
    · obtain ⟨pre, hpre, _, hdig, hval⟩ := ih (n / 10) (Nat.digitChar (n % 10) :: ds) (by omega)
      refine ⟨pre ++ [Nat.digitChar (n % 10)], by simp [Nat.toDigitsCore, h0, hpre], by simp,
        ?_, ?_⟩
      · intro c hc
        rcases List.mem_append.mp hc with h1 | h1
        · exact hdig c h1
        · rw [List.mem_singleton.mp h1]
          exact hd.1
      · rw [digits_value_append pre _ hdig, hval]
        simp only [digits_value, hd.1, if_true, hd.2]
        omega

theorem toDigits_spec (n : Nat) :
    Nat.toDigits 10 n ≠ [] ∧ (∀ c ∈ Nat.toDigits 10 n, c.isDigit = true)
      ∧ digits_value 0 (Nat.toDigits 10 n) = n := by
  obtain ⟨pre, hpre, hne, hdig, hval⟩ := toDigitsCore_spec (n + 1) n [] (Nat.lt_succ_self n)
  rw [List.append_nil] at hpre
  unfold Nat.toDigits
  rw [hpre]
  exact ⟨hne, hdig, hval⟩

/-! ## Recall block of the main loop: proofs -/

theorem main_recall_bang_bang (st : HistoryStore) (l : Locals)
    (htok : cstr l.input_buffer (l.tokens.getD 0 0) = "!!".toList) :
    main_recall st l
      = if st.history_count = 0 then some (l, write_line "Error: No previous command")
        else retrieve_cmd st.history (st.history_count - 1) l := by
  unfold main_recall
  simp only [htok]
  rw [if_neg (by decide), if_pos trivial]

theorem main_recall_index (st : HistoryStore) (l : Locals) (num : List Char)
    (htok : cstr l.input_buffer (l.tokens.getD 0 0) = '!' :: num)
    (hne : num ≠ []) (hdig : ∀ c ∈ num, c.isDigit = true) :
    main_recall st l = history_select num st l := by
  cases num with
  | nil => exact absurd rfl hne
  | cons d ds =>
    have hd : d ≠ '!' := by
      intro h
      have := hdig d (List.mem_cons_self _ _)
      rw [h] at this
      exact absurd this (by decide)
    unfold main_recall
    simp only [htok]
    have hcond : ('!' :: d :: ds).getD 0 NUL = '!' ∧ ('!' :: d :: ds).getD 1 NUL ≠ '!' := by
      simp [hd]
    rw [if_pos hcond]
    rfl

theorem spec_extract_flag (ts : List (List Char)) :
    (spec_extract ts).2 = decide (ts.getLast? = some "&".toList) := by
  unfold spec_extract
  by_cases h : ts.getLast? = some "&".toList
  · rw [if_pos h]
    simp only [h, decide_True]
  · rw [if_neg h]
    simp only [h, decide_False]

/-! ## History window: proofs -/

theorem record_all_snoc (st : HistoryStore) (calls : List (List (List Char) × Bool))
    (c : List (List Char) × Bool) :
    record_all st (calls ++ [c])
      = (record_all st calls).bind (fun s => add_to_history s c.1 c.2) := by
  unfold record_all
  rw [List.foldlM_append]
  cases h : List.foldlM (fun s c => add_to_history s c.1 c.2) st calls with
  | none => rfl
  | some s1 =>
    simp only [Option.bind_eq_bind, Option.some_bind, List.foldlM_cons, List.foldlM_nil]
    cases add_to_history s1 c.1 c.2 <;> rfl

/-- Window invariant of the ring buffer after a run of recorded lines. -/
theorem record_all_window (calls : List (List (List Char) × Bool)) :
    (∀ c ∈ calls, c.1 ≠ [] ∧ (spec_line c.1 c.2).length < COMMAND_LENGTH) →
    (calls.length : Int) ≤ INT_MAX →
    ∃ st, record_all empty_store calls = some st
      ∧ st.history_count = calls.length
      ∧ st.history.length = HISTORY_DEPTH
      ∧ ∀ (i : Nat) (c : List (List Char) × Bool), calls[i]? = some c →
          calls.length ≤ i + HISTORY_DEPTH →
          st.history.getD (i % HISTORY_DEPTH) [] = spec_line c.1 c.2 := by
  induction calls using List.reverseRecOn with
  | nil =>
    intro _ _
    exact ⟨empty_store, rfl, rfl, by simp [empty_store], by simp⟩
  | append_singleton l a ih =>
    intro hfit hmax
    have hlen : (l ++ [a]).length = l.length + 1 := by simp
    rw [hlen] at hmax
    obtain ⟨st, hrun, hcount, hslots, hwin⟩ := ih
      (fun c hc => hfit c (List.mem_append_left _ hc)) (by push_cast at hmax; omega)
    have ha := hfit a (by simp)
    have hadd := add_to_history_eq st a.1 a.2 ha.1 ha.2 (by rw [hcount]; omega)
      (by rw [hcount]; push_cast at hmax; unfold INT_MAX at hmax ⊢; omega)
    have htoNat : st.history_count.toNat = l.length := by rw [hcount]; simp
    rw [htoNat] at hadd
    refine ⟨_, by rw [record_all_snoc, hrun, Option.some_bind, hadd], ?_, ?_, ?_⟩
    · simp [hcount]
    · simp [hslots]
    · intro i c hi hwindow
      rw [hlen] at hwindow
      simp only
      by_cases hlt : i < l.length
      · rw [List.getElem?_append_left hlt] at hi
        have hne : l.length % HISTORY_DEPTH ≠ i % HISTORY_DEPTH := by
          unfold HISTORY_DEPTH at hwindow ⊢
          omega
        rw [getD_set_other _ _ _ _ hne]
        exact hwin i c hi (by omega)
      · have hge : l.length ≤ i := by omega
        rw [List.getElem?_append_right hge] at hi
        have hi0 : i = l.length := by
          by_contra hne
          have : i - l.length ≠ 0 := by omega
          obtain ⟨k, hk⟩ := Nat.exists_eq_succ_of_ne_zero this
          rw [hk] at hi
          simp at hi
        subst hi0
        simp only [Nat.sub_self, List.getElem?_cons_zero, Option.some.injEq] at hi
        subst hi
        exact getD_set_self _ _ _ (by rw [hslots]; exact Nat.mod_lt _ (by decide))

theorem history_cmd_loop_neg (history : List (List Char)) (remaining : Nat) (n : Int)
    (hn : n < 0) : history_cmd_loop history remaining n = [] := by
  cases remaining with
  | zero => rfl
  | succ k =>
    have h : ¬ n ≥ 0 := by omega
    simp [history_cmd_loop, h]

theorem history_cmd_loop_eq (history : List (List Char)) :
    ∀ (remaining m : Nat), history_cmd_loop history remaining (m : Int)
      = (List.range (min remaining (m + 1))).flatMap (fun k =>
          history_entry (m - k) (history.getD ((m - k) % HISTORY_DEPTH) [])) := by
  intro remaining
  induction remaining with
  | zero => intro m; simp [history_cmd_loop]
  | succ r ih =>
    intro m
    have hpos : (m : Int) ≥ 0 := by omega
    have hmin : min (r + 1) (m + 1) = min r m + 1 := by omega
    rw [history_cmd_loop, if_pos hpos, hmin, List.range_succ_eq_map, List.flatMap_cons,
      List.flatMap_map]
    simp only [Int.toNat_ofNat, Nat.sub_zero]
    cases m with
    | zero =>
      rw [history_cmd_loop_neg _ _ _ (by omega)]
      simp [history_entry]
    | succ m1 =>
      have hcast : ((m1 + 1 : Nat) : Int) - 1 = (m1 : Int) := by push_cast; omega
      rw [hcast, ih m1]
      simp [history_entry, Nat.succ_eq_add_one]

/-! ## Tokenizer on an arbitrary buffer: proofs -/

theorem strnlen_le_length (buff : List Char) (n : Nat) : strnlen buff n ≤ buff.length := by
  unfold strnlen
  have h1 := (List.takeWhile_prefix (fun c => c != NUL) (l := buff.take n)).length_le
  have h2 : (buff.take n).length ≤ buff.length := by
    rw [List.length_take]; exact Nat.min_le_right _ _
  omega

theorem strnlen_le (buff : List Char) (n : Nat) : strnlen buff n ≤ n := by
  unfold strnlen
  have h1 := (List.takeWhile_prefix (fun c => c != NUL) (l := buff.take n)).length_le
  have h2 : (buff.take n).length ≤ n := by
    rw [List.length_take]; exact Nat.min_le_left _ _
  omega

/-- The result of `tokenize_command` on any buffer, in terms of the scanned
part, the first `strnlen` bytes. -/
theorem tokenize_command_general (buff : List Char) :
    tokenize_command buff
      = ⟨(buff.take (strnlen buff COMMAND_LENGTH)).map zap
            ++ buff.drop (strnlen buff COMMAND_LENGTH),
          token_starts 0 false (buff.take (strnlen buff COMMAND_LENGTH)),
          (token_starts 0 false (buff.take (strnlen buff COMMAND_LENGTH))).length⟩ := by
  have hlen : (buff.take (strnlen buff COMMAND_LENGTH)).length = strnlen buff COMMAND_LENGTH := by
    rw [List.length_take]
    exact Nat.min_eq_left (strnlen_le_length buff COMMAND_LENGTH)
  obtain ⟨b, hb⟩ := tokenize_fold (buff.drop (strnlen buff COMMAND_LENGTH))
    (buff.take (strnlen buff COMMAND_LENGTH)) [] [] 0 false
  simp only [List.length_nil, List.nil_append, Nat.zero_add, List.take_append_drop, hlen] at hb
  unfold tokenize_command
  simp only [List.range_eq_range', hb]

theorem tokenize_buff_length (buff : List Char) :
    (tokenize_command buff).buff.length = buff.length := by
  rw [tokenize_command_general]
  simp only [List.length_append, List.length_map, List.length_take, List.length_drop]
  have := strnlen_le_length buff COMMAND_LENGTH
  omega

theorem token_starts_length_le (post : List Char) :
    ∀ (off : Nat) (inTok : Bool),
      2 * (token_starts off inTok post).length ≤ post.length + (if inTok then 0 else 1) := by
  induction post with
  | nil => intro off inTok; simp [token_starts]
  | cons c cs ih =>
    intro off inTok
    by_cases hd : is_delimiter c = true
    · have h := ih (off + 1) false
      simp only [Bool.false_eq_true, if_false] at h
      simp only [token_starts, hd, if_true, List.length_cons]
      split <;> omega
    · have hd1 : is_delimiter c = false := by simpa using hd
      have h := ih (off + 1) true
      simp only [if_true] at h
      cases inTok with
      | true =>
        simp only [token_starts, hd1, Bool.false_eq_true, if_false, if_true, List.length_cons]
        omega
      | false =>
        simp only [token_starts, hd1, Bool.false_eq_true, if_false, List.length_cons]
        omega

theorem token_count_bound (buff : List Char) :
    2 * (tokenize_command buff).token_count ≤ strnlen buff COMMAND_LENGTH + 1
    ∧ (tokenize_command buff).tokens.length = (tokenize_command buff).token_count := by
  rw [tokenize_command_general]
  have h := token_starts_length_le (buff.take (strnlen buff COMMAND_LENGTH)) 0 false
  have hlen : (buff.take (strnlen buff COMMAND_LENGTH)).length = strnlen buff COMMAND_LENGTH := by
    rw [List.length_take]
    exact Nat.min_eq_left (strnlen_le_length buff COMMAND_LENGTH)
  simp only [Bool.false_eq_true, if_false, hlen] at h
  exact ⟨h, rfl⟩

/-! ## Changing directory: proofs -/

theorem get_home_ok (env : Env) (hH : env.home.length < COMMAND_LENGTH) :
    get_home env = some env.home := by
  simp [get_home, strcat, hH]

theorem cd_target_dash (env : Env) (P : List Char) (hP : P.length < COMMAND_LENGTH) :
    cd_target env P "-".toList = some (some P) := by
  simp [cd_target, previous_dir_is_null, strcat, hP]

theorem cd_target_home (env : Env) (P : List Char) (hH : env.home.length < COMMAND_LENGTH) :
    cd_target env P "~".toList = some (some env.home) := by
  have h1 : ¬ "~".toList = "-".toList := by decide
  simp only [cd_target, if_neg h1, if_true, get_home_ok env hH, Option.map_some']

theorem cd_target_tilde (env : Env) (P r : List Char) (hr : r ≠ [])
    (hH : env.home.length < COMMAND_LENGTH) (hfit : (env.home ++ r).length < COMMAND_LENGTH) :
    cd_target env P ('~' :: r) = some (some (env.home ++ r)) := by
  have h1 : ¬ '~' :: r = "-".toList := by
    intro h
    have h2 : "-".toList = ['-'] := rfl
    rw [h2] at h
    exact absurd (List.cons.inj h).1 (by decide)
  have h2 : ¬ '~' :: r = "~".toList := by
    intro h
    have h3 : "~".toList = ['~'] := rfl
    rw [h3] at h
    exact hr (List.cons.inj h).2
  have h4 : env.home.length + r.length < COMMAND_LENGTH := by
    rw [List.length_append] at hfit; exact hfit
  simp only [cd_target, if_neg h1, if_neg h2, List.head?_cons, if_true, get_home_ok env hH,
    Option.some_bind, List.drop_succ_cons, List.drop_zero, strcat, if_pos h4, Option.map_some']

theorem cd_target_verbatim (env : Env) (P a : List Char) (hdash : a ≠ "-".toList)
    (htilde : a.head? ≠ some '~') (hfit : a.length < COMMAND_LENGTH) :
    cd_target env P a = some (some a) := by
  have h2 : ¬ a = "~".toList := by
    intro h
    rw [h] at htilde
    exact htilde rfl
  simp only [cd_target, if_neg hdash, if_neg h2, if_neg htilde, strcat, List.length_nil,
    Nat.zero_add, if_pos hfit, List.nil_append, Option.map_some']

theorem cd_cmd_one_arg (env : Env) (cmd a P cwd : List Char) :
    cd_cmd env 2 [cmd, a] P cwd
      = (cd_target env P a).bind (fun target =>
          match target with
          | none => some (P, cwd, (save_cwd cwd).2 ++ write_line "Error: No previous directory")
          | some dir_str =>
            cd_change env (save_cwd cwd).1 (save_cwd cwd).2 dir_str P cwd) := by
  simp [cd_cmd]

theorem cd_cmd_long_tilde (P cwd : List Char) :
    cd_cmd sample_env 2 ["cd".toList, '~' :: List.replicate 1014 'a'] P cwd = none := by
  have h1 : ¬ '~' :: List.replicate 1014 'a' = "-".toList := by
    intro h
    have h2 : "-".toList = ['-'] := rfl
    rw [h2] at h
    exact absurd (List.cons.inj h).1 (by decide)
  have h2 : ¬ '~' :: List.replicate 1014 'a' = "~".toList := by
    intro h
    have h3 : "~".toList = ['~'] := rfl
    rw [h3] at h
    have h4 := congrArg List.length (List.cons.inj h).2
    simp only [List.length_replicate, List.length_nil] at h4
    exact absurd h4 (by decide)
  have hH : sample_env.home.length < COMMAND_LENGTH := by decide
  have h4 : ¬ sample_env.home.length + (List.replicate 1014 'a').length < COMMAND_LENGTH := by
    rw [List.length_replicate]; decide
  rw [cd_cmd_one_arg]
  simp only [cd_target, if_neg h1, if_neg h2, List.head?_cons, if_true, get_home_ok _ hH,
    Option.some_bind, List.drop_succ_cons, List.drop_zero, strcat, if_neg h4, Option.map_none',
    Option.none_bind]

theorem quiet_nil : quiet [] := by
  intro e he
  simp at he

theorem quiet_append (a b : List Effect) (ha : quiet a) (hb : quiet b) : quiet (a ++ b) := by
  intro e he
  rcases List.mem_append.mp he with h | h
  · exact ha e h
  · exact hb e h

theorem quiet_write_line (s : String) : quiet (write_line s) := by
  intro e he
  simp only [write_line, List.mem_cons, List.mem_singleton, List.not_mem_nil, or_false] at he
  rcases he with h | h <;> rw [h] <;> rfl

theorem quiet_history_cmd_loop (history : List (List Char)) :
    ∀ (remaining : Nat) (n : Int), quiet (history_cmd_loop history remaining n) := by
  intro remaining
  induction remaining with
  | zero => intro n; exact quiet_nil
  | succ k ih =>
    intro n
    unfold history_cmd_loop
    by_cases h : n ≥ 0
    · rw [if_pos h]
      apply quiet_append
      · intro e he
        simp only [List.mem_cons, List.mem_singleton, List.not_mem_nil, or_false] at he
        rcases he with h1 | h1 | h1 | h1 <;> rw [h1] <;> rfl
      · exact ih _
    · rw [if_neg h]
      exact quiet_nil

theorem quiet_history_cmd (history : List (List Char)) (token_count : Nat) (n : Int) :
    quiet (history_cmd history token_count n) := by
  unfold history_cmd
  split
  · exact quiet_write_line _
  · exact quiet_history_cmd_loop _ _ _

theorem quiet_pwd_cmd (token_count : Nat) (cwd : List Char) : quiet (pwd_cmd token_count cwd) := by
  unfold pwd_cmd
  split
  · exact quiet_write_line _
  · split
    · intro e he
      simp only [List.mem_cons, List.mem_singleton, List.not_mem_nil, or_false] at he
      rcases he with h1 | h1 <;> rw [h1] <;> rfl
    · exact quiet_write_line _

theorem quiet_exit_cmd (token_count : Nat) : quiet (exit_cmd token_count).1 := by
  unfold exit_cmd
  split
  · exact quiet_write_line _
  · exact quiet_write_line _

theorem quiet_save_cwd (cwd : List Char) : quiet (save_cwd cwd).2 := by
  unfold save_cwd
  split
  · exact quiet_nil
  · intro e he
    simp only [List.mem_singleton] at he
    rw [he]; rfl

theorem quiet_cd_change (env : Env) (saved : Option (List Char)) (out : List Effect)
    (t P cwd : List Char) (hout : quiet out) (r : List Char × List Char × List Effect)
    (hr : cd_change env saved out t P cwd = some r) : quiet r.2.2 := by
  unfold cd_change at hr
  cases hc : env.chdir cwd t with
  | none =>
    rw [hc] at hr
    simp only [Option.some.injEq] at hr
    rw [← hr]
    apply quiet_append _ _ hout
    intro e he
    simp only [List.mem_cons, List.mem_singleton, List.not_mem_nil, or_false] at he
    rcases he with h1 | h1 | h1 | h1 | h1 <;> rw [h1] <;> rfl
  | some new_cwd =>
    rw [hc] at hr
    cases saved with
    | none => simp at hr
    | some old =>
      simp only [Option.map_some', Option.some.injEq] at hr
      rw [← hr]
      apply quiet_append _ _ hout
      intro e he
      simp only [List.mem_cons, List.mem_singleton, List.not_mem_nil, or_false] at he
      rcases he with h1 | h1 | h1 | h1 | h1 <;> rw [h1] <;> rfl

theorem quiet_cd_cmd (env : Env) (token_count : Nat) (tokens : List (List Char))
    (P cwd : List Char) (r : List Char × List Char × List Effect)
    (hr : cd_cmd env token_count tokens P cwd = some r) : quiet r.2.2 := by
  unfold cd_cmd at hr
  simp only at hr
  by_cases h1 : token_count = 1
  · rw [if_pos h1] at hr
    cases hh : get_home env with
    | none => rw [hh] at hr; simp at hr
    | some home =>
      rw [hh, Option.some_bind] at hr
      exact quiet_cd_change env _ _ _ _ _ (quiet_save_cwd cwd) r hr
  · rw [if_neg h1] at hr
    by_cases h2 : token_count ≠ 2
    · rw [if_pos h2] at hr
      simp only [Option.some.injEq] at hr
      rw [← hr]
      exact quiet_append _ _ (quiet_save_cwd cwd) (quiet_write_line _)
    · rw [if_neg h2] at hr
      cases ha : tokens[1]? with
      | none => rw [ha] at hr; simp at hr
      | some arg =>
        rw [ha] at hr
        simp only at hr
        cases ht : cd_target env P arg with
        | none => rw [ht] at hr; simp at hr
        | some target =>
          rw [ht, Option.some_bind] at hr
          cases target with
          | none =>
            simp only [Option.some.injEq] at hr
            rw [← hr]
            exact quiet_append _ _ (quiet_save_cwd cwd) (quiet_write_line _)
          | some dir_str =>
            exact quiet_cd_change env _ _ _ _ _ (quiet_save_cwd cwd) r hr

theorem quiet_help_cmd (token_count : Nat) (tokens : List (List Char)) (out : List Effect)
    (h : help_cmd token_count tokens = some out) : quiet out := by
  unfold help_cmd at h
  by_cases h1 : token_count > 2
  · rw [if_pos h1] at h
    simp only [Option.some.injEq] at h
    rw [← h]; exact quiet_write_line _
  · rw [if_neg h1] at h
    by_cases h2 : token_count > 1
    · rw [if_pos h2] at h
      cases ha : tokens[1]? with
      | none => rw [ha] at h; simp at h
      | some arg =>
        rw [ha] at h
        simp only at h
        split at h
        · simp only [Option.some.injEq] at h; rw [← h]; exact quiet_write_line _
        · split at h
          · simp only [Option.some.injEq] at h; rw [← h]; exact quiet_write_line _
          · split at h
            · simp only [Option.some.injEq] at h; rw [← h]; exact quiet_write_line _
            · split at h
              · simp only [Option.some.injEq] at h; rw [← h]; exact quiet_write_line _
              · simp only [Option.some.injEq] at h
                rw [← h]
                intro e he
                simp only [List.mem_cons, List.mem_singleton, List.not_mem_nil, or_false] at he
                rcases he with h1 | h1 | h1 | h1 <;> rw [h1] <;> rfl
    · rw [if_neg h2] at h
      simp only [Option.some.injEq] at h
      rw [← h]
      intro e he
      simp only [List.flatMap_cons, List.flatMap_nil, List.append_nil, List.mem_append] at he
      rcases he with h1 | h1 | h1 | h1
      · exact quiet_write_line _ e h1
      · exact quiet_write_line _ e h1
      · exact quiet_write_line _ e h1
      · exact quiet_write_line _ e h1

theorem quiet_retrieve_cmd (history : List (List Char)) (idx : Int) (l : Locals)
    (r : Locals × List Effect) (h : retrieve_cmd history idx l = some r) : quiet r.2 := by
  rcases retrieve_cmd_output history idx l r h with h1 | h1
  · rw [h1]; exact quiet_nil
  · rw [h1]; exact quiet_write_line _

theorem quiet_history_select (num : List Char) (st : HistoryStore) (l : Locals)
    (r : Locals × List Effect) (h : history_select num st l = some r) : quiet r.2 := by
  unfold history_select at h
  split at h
  · simp only [Option.some.injEq] at h; rw [← h]; exact quiet_write_line _
  · split at h
    · simp only [Option.some.injEq] at h; rw [← h]; exact quiet_write_line _
    · simp only at h
      split at h
      · exact quiet_retrieve_cmd _ _ _ _ h
      · simp only [Option.some.injEq] at h; rw [← h]; exact quiet_write_line _

theorem quiet_main_recall (st : HistoryStore) (l : Locals) (r : Locals × List Effect)
    (h : main_recall st l = some r) : quiet r.2 := by
  unfold main_recall at h
  simp only at h
  split at h
  · exact quiet_history_select _ _ _ _ h
  · split at h
    · split at h
      · simp only [Option.some.injEq] at h; rw [← h]; exact quiet_write_line _
      · exact quiet_retrieve_cmd _ _ _ _ h
    · simp only [Option.some.injEq] at h; rw [← h]; exact quiet_nil

theorem main_dispatch_builtin (env : Env) (fork_ok : Bool) (st : ShellState)
    (token_count : Nat) (tok0 : List Char) (args : List (List Char)) (in_background : Bool)
    (o : Outcome) (hb : tok0 ∈ builtin_names)
    (h : main_dispatch env fork_ok st token_count (tok0 :: args) in_background = some o) :
    quiet o.effects := by
  simp only [builtin_names, List.mem_cons, List.mem_singleton, List.not_mem_nil, or_false] at hb
  unfold main_dispatch at h
  simp only at h
  split at h
  · simp only [Option.some.injEq] at h; rw [← h]; exact quiet_exit_cmd _
  · split at h
    · simp only [Option.some.injEq] at h; rw [← h]; exact quiet_pwd_cmd _ _
    · split at h
      · cases hc : cd_cmd env token_count (tok0 :: args) st.previous_dir st.cwd with
        | none => rw [hc] at h; simp at h
        | some r =>
          rw [hc] at h
          simp only [Option.map_some', Option.some.injEq] at h
          rw [← h]
          exact quiet_cd_cmd _ _ _ _ _ r hc
      · split at h
        · cases hc : help_cmd token_count (tok0 :: args) with
          | none => rw [hc] at h; simp at h
          | some out =>
            rw [hc] at h
            simp only [Option.map_some', Option.some.injEq] at h
            rw [← h]
            exact quiet_help_cmd _ _ out hc
        · split at h
          · simp only [Option.some.injEq] at h; rw [← h]; exact quiet_history_cmd _ _ _
          · rename_i h1 h2 h3 h4 h5
            rcases hb with hb | hb | hb | hb | hb
            · exact absurd hb h1
            · exact absurd hb h2
            · exact absurd hb h3
            · exact absurd hb h4
            · exact absurd hb h5

theorem main_dispatch_external (env : Env) (fork_ok : Bool) (st : ShellState)
    (token_count : Nat) (tok0 : List Char) (args : List (List Char)) (in_background : Bool)
    (hb : tok0 ∉ builtin_names) :
    main_dispatch env fork_ok st token_count (tok0 :: args) in_background
      = if fork_ok then
          some ⟨st, [Effect.fork_exec (tok0 :: args)]
                  ++ (if in_background then [] else [Effect.wait_child])
                  ++ [Effect.reap_all], none⟩
        else some ⟨st, write_line "Process Fork Failed", some 1⟩ := by
  simp only [builtin_names, List.mem_cons, List.mem_singleton, List.not_mem_nil, or_false,
    not_or] at hb
  obtain ⟨h1, h2, h3, h4, h5⟩ := hb
  unfold main_dispatch
  simp only [if_neg h1, if_neg h2, if_neg h3, if_neg h4, if_neg h5]
  cases fork_ok <;> simp

theorem main_dispatch_effects (env : Env) (fork_ok : Bool) (st : ShellState)
    (token_count : Nat) (tokens : List (List Char)) (in_background : Bool) (o : Outcome)
    (h : main_dispatch env fork_ok st token_count tokens in_background = some o) :
    quiet o.effects
    ∨ o.effects = [Effect.fork_exec tokens]
        ++ (if in_background then [] else [Effect.wait_child]) ++ [Effect.reap_all] := by
  cases tokens with
  | nil => simp [main_dispatch] at h
  | cons tok0 args =>
    by_cases hb : tok0 ∈ builtin_names
    · exact Or.inl (main_dispatch_builtin env fork_ok st token_count tok0 args in_background o hb h)
    · rw [main_dispatch_external env fork_ok st token_count tok0 args in_background hb] at h
      cases fork_ok with
      | true =>
        simp only [if_true, Option.some.injEq] at h
        rw [← h]
        exact Or.inr rfl
      | false =>
        simp only [Bool.false_eq_true, if_false, Option.some.injEq] at h
        rw [← h]
        exact Or.inl (quiet_write_line _)

/-- The effects of one pass: output and `chdir` calls, followed, when an
external command was launched, by the launch, the wait for a foreground
command, and the reap sweep. -/
theorem main_iteration_effects (env : Env) (inp : Input) (st : ShellState) (o : Outcome)
    (h : main_iteration env inp st = some o) :
    ∃ pre post, o.effects = pre ++ post ∧ quiet pre
      ∧ (post = [] ∨ ∃ (argv : List (List Char)) (b : Bool), post = [Effect.fork_exec argv]
          ++ (if b then [] else [Effect.wait_child]) ++ [Effect.reap_all]) := by
  unfold main_iteration at h
  cases hg : getcwd st.cwd with
  | none =>
    rw [hg] at h
    simp only [Option.some.injEq] at h
    rw [← h]
    refine ⟨_, [], (List.append_nil _).symm, ?_, Or.inl rfl⟩
    intro e he
    simp only [List.mem_singleton] at he
    rw [he]; rfl
  | some dir =>
    rw [hg] at h
    simp only at h
    have hprompt : quiet [Effect.write dir, Effect.write "$ ".toList] := by
      intro e he
      simp only [List.mem_cons, List.mem_singleton, List.not_mem_nil, or_false] at he
      rcases he with h1 | h1 <;> rw [h1] <;> rfl
    cases hread : inp.read with
    | none =>
      rw [hread] at h
      simp only [Option.some.injEq] at h
      rw [← h]
      refine ⟨_, [], (List.append_nil _).symm, ?_, Or.inl rfl⟩
      apply quiet_append _ _ hprompt
      intro e he
      simp only [List.mem_singleton] at he
      rw [he]; rfl
    | some data =>
      rw [hread] at h
      dsimp only at h
      cases hl : read_command st.input_buffer data with
      | none => rw [hl] at h; simp at h
      | some l =>
        rw [hl, Option.some_bind] at h
        by_cases hpos : l.token_count > 0
        · rw [if_pos hpos] at h
          cases hr : main_recall st.store l with
          | none => rw [hr] at h; simp at h
          | some r =>
            rw [hr, Option.some_bind] at h
            cases ha : add_to_history st.store (token_strings r.1.input_buffer r.1.tokens)
                r.1.in_background with
            | none => rw [ha] at h; simp at h
            | some store =>
              rw [ha, Option.some_bind] at h
              cases hd : main_dispatch env inp.fork_ok
                  { st with store := store, input_buffer := r.1.input_buffer }
                  r.1.token_count (token_strings r.1.input_buffer r.1.tokens)
                  r.1.in_background with
              | none => rw [hd] at h; simp at h
              | some o1 =>
                rw [hd] at h
                simp only [Option.map_some', Option.some.injEq] at h
                have hnotice : quiet (if r.1.in_background = true
                    then write_line "Running in background..." else []) := by
                  split
                  · exact quiet_write_line _
                  · exact quiet_nil
                have hpre := quiet_append _ _
                  (quiet_append _ _ hprompt (quiet_main_recall _ _ r hr)) hnotice
                rw [← h]
                rcases main_dispatch_effects _ _ _ _ _ _ o1 hd with hq | hq
                · exact ⟨_, [], (List.append_nil _).symm, quiet_append _ _ hpre hq, Or.inl rfl⟩
                · exact ⟨_, _, rfl, hpre, Or.inr ⟨_, _, hq⟩⟩
        · rw [if_neg hpos] at h
          simp only [Option.some.injEq] at h
          rw [← h]
          exact ⟨_, [], (List.append_nil _).symm, hprompt, Or.inl rfl⟩

/-! ## Symbolic run of the main loop: proofs -/

theorem extract_background_buffer (l : Locals) :
    (extract_background l).input_buffer = l.input_buffer := by
  unfold extract_background
  split <;> rfl

theorem read_command_buffer_length (buff data : List Char) (l : Locals)
    (hbuf : buff.length = COMMAND_LENGTH) (h : read_command buff data = some l) :
    l.input_buffer.length = COMMAND_LENGTH := by
  have hC : COMMAND_LENGTH = 1024 := rfl
  have hd : (data.take (COMMAND_LENGTH - 1)).length ≤ COMMAND_LENGTH - 1 := by
    rw [List.length_take]; exact Nat.min_le_left _ _
  have hlen : (data.take (COMMAND_LENGTH - 1) ++ NUL ::
      buff.drop ((data.take (COMMAND_LENGTH - 1)).length + 1)).length = COMMAND_LENGTH := by
    simp only [List.length_append, List.length_cons, List.length_drop, hbuf]
    omega
  have key : ∀ b2 : List Char, b2.length = COMMAND_LENGTH →
      (if (tokenize_command b2).token_count = 0 then
          some (⟨(tokenize_command b2).buff, (tokenize_command b2).tokens, 0, false⟩ : Locals)
        else some (extract_background ⟨(tokenize_command b2).buff,
          (tokenize_command b2).tokens, (tokenize_command b2).token_count, false⟩)) = some l →
      l.input_buffer.length = COMMAND_LENGTH := by
    intro b2 hb2 hk
    split at hk
    · simp only [Option.some.injEq] at hk
      rw [← hk]
      show (tokenize_command b2).buff.length = COMMAND_LENGTH
      rw [tokenize_buff_length, hb2]
    · simp only [Option.some.injEq] at hk
      rw [← hk, extract_background_buffer]
      show (tokenize_command b2).buff.length = COMMAND_LENGTH
      rw [tokenize_buff_length, hb2]
  unfold read_command at h
  simp only at h
  split at h
  · simp at h
  · split at h
    · exact key _ (by rw [List.length_set]; exact hlen) h
    · exact key _ hlen h

theorem first_token (buff : List Char) (tokens : List Nat) (t0 : List Char)
    (ts : List (List Char)) (h : token_strings buff tokens = t0 :: ts) :
    cstr buff (tokens.getD 0 0) = t0 := by
  cases tokens with
  | nil => simp [token_strings] at h
  | cons p ps =>
    simp only [token_strings, List.map_cons, List.cons.injEq] at h
    simpa using h.1

theorem main_recall_plain (st : HistoryStore) (l : Locals)
    (h : (cstr l.input_buffer (l.tokens.getD 0 0)).getD 0 NUL ≠ '!') :
    main_recall st l = some (l, []) := by
  have h2 : ¬ cstr l.input_buffer (l.tokens.getD 0 0) = "!!".toList := by
    intro heq
    rw [heq] at h
    exact h (by decide)
  unfold main_recall
  simp only
  rw [if_neg (fun hc => h hc.1), if_neg h2]

/-- One pass of the main loop once the line is read and the history reference
resolved. -/
theorem main_iteration_step (env : Env) (inp : Input) (st : ShellState) (data : List Char)
    (l : Locals) (r : Locals × List Effect) (hcwd : st.cwd.length < COMMAND_LENGTH)
    (hin : inp.read = some data) (hread : read_command st.input_buffer data = some l)
    (hpos : l.token_count > 0) (hrec : main_recall st.store l = some r) :
    main_iteration env inp st
      = (add_to_history st.store (token_strings r.1.input_buffer r.1.tokens)
            r.1.in_background).bind (fun store =>
          (main_dispatch env inp.fork_ok
              { st with store := store, input_buffer := r.1.input_buffer }
              r.1.token_count (token_strings r.1.input_buffer r.1.tokens)
              r.1.in_background).map (fun o =>
            { o with effects := [Effect.write st.cwd, Effect.write "$ ".toList] ++ r.2
                ++ (if r.1.in_background then write_line "Running in background..." else [])
                ++ o.effects })) := by
  unfold main_iteration
  simp only [getcwd, if_pos hcwd, hin, hread, Option.some_bind, if_pos hpos, hrec]

theorem long_line_length : long_line.length = 1022 :=
  List.length_replicate _ _

theorem long_line_chars (c : Char) (h : c ∈ long_line) : c = 'a' :=
  List.eq_of_mem_replicate h

theorem long_line_ne_nil : long_line ≠ [] := by
  intro h
  have := congrArg List.length h
  rw [long_line_length] at this
  exact absurd this (by decide)

theorem long_line_head : long_line.getD 0 NUL = 'a' := rfl

theorem spec_tokens_long_line : spec_tokens long_line = [long_line] := by
  have h := spec_tokens_joined [] long_line (by
    intro tok htok
    rw [List.mem_singleton.mp htok]
    refine ⟨long_line_ne_nil, ?_⟩
    intro c hc
    rw [long_line_chars c hc]
    decide)
  simpa using h

theorem long_line_ne_amp : long_line ≠ "&".toList := by
  intro h
  have := congrArg List.length h
  rw [long_line_length] at this
  exact absurd this (by decide)

theorem spec_extract_long_line : spec_extract [long_line] = ([long_line], false) := by
  unfold spec_extract
  have h : ¬ [long_line].getLast? = some "&".toList := by
    simp only [List.getLast?_singleton, Option.some.injEq]
    exact long_line_ne_amp
  rw [if_neg h]

theorem long_line_external : long_line ∉ builtin_names := by
  intro h
  simp only [builtin_names, List.mem_cons, List.mem_singleton, List.not_mem_nil, or_false] at h
  have hlen := long_line_length
  rcases h with h | h | h | h | h <;> rw [h] at hlen <;> exact absurd hlen (by decide)

/-- The first pass of the failing run of C18: the fresh shell reads the long
line and records it at index 0. -/
theorem long_line_recorded (buff : List Char) (hbuf : buff.length = COMMAND_LENGTH) :
    ∃ o, main_iteration sample_env ⟨some (long_line ++ ['\n']), true⟩
          (initial_state buff "/tmp".toList) = some o
      ∧ o.state.store = ⟨long_line :: List.replicate 9 [], 1⟩
      ∧ o.state.input_buffer.length = COMMAND_LENGTH
      ∧ o.state.cwd = "/tmp".toList
      ∧ o.exit_status = none := by
  have hnul : ∀ c ∈ long_line ++ ['\n'], c ≠ NUL := by
    intro c hc
    rcases List.mem_append.mp hc with h | h
    · rw [long_line_chars c h]; decide
    · rw [List.mem_singleton.mp h]; decide
  have hlen : (long_line ++ ['\n']).length ≤ COMMAND_LENGTH - 1 := by
    rw [List.length_append, long_line_length]; decide
  obtain ⟨l, hl, hs, hc, hb⟩ := read_command_spec buff (long_line ++ ['\n']) (by simp) hnul hlen
  have hstrip : spec_strip_newline (long_line ++ ['\n']) = long_line := by
    simp [spec_strip_newline]
  rw [hstrip, spec_tokens_long_line, spec_extract_long_line] at hs hc hb
  have hlb := read_command_buffer_length buff _ l hbuf hl
  have htok0 := first_token _ _ _ _ hs
  have hrec : main_recall (initial_state buff "/tmp".toList).store l = some (l, []) :=
    main_recall_plain _ l (by rw [htok0, long_line_head]; decide)
  have hstep := main_iteration_step sample_env ⟨some (long_line ++ ['\n']), true⟩
    (initial_state buff "/tmp".toList) _ l (l, [])
    (by show "/tmp".toList.length < COMMAND_LENGTH; decide) rfl hl
    (by rw [hc]; decide) hrec
  have hline : spec_line [long_line] false = long_line := by
    rw [spec_line_cons]; simp
  have hadd := add_to_history_eq (initial_state buff "/tmp".toList).store [long_line] false
    (by simp) (by rw [hline, long_line_length]; decide)
    (by show (0 : Int) ≤ 0; decide) (by show (0 : Int) < INT_MAX; decide)
  rw [hline] at hadd
  simp only [hs, hb, hc] at hstep
  rw [hadd, Option.some_bind, main_dispatch_external _ _ _ _ _ _ _ long_line_external] at hstep
  simp only [if_true, Option.map_some'] at hstep
  exact ⟨_, hstep, by simp [initial_state, HISTORY_DEPTH], hlb, rfl, rfl⟩

theorem long_line_with_amp : (spec_line [long_line] true).length = COMMAND_LENGTH := by
  rw [spec_line_cons]
  simp only [List.flatMap_nil, List.append_nil, if_true, List.length_append, long_line_length,
    List.length_cons, List.length_nil]
  rfl

theorem add_long_line_with_amp (st : HistoryStore) :
    add_to_history st [long_line] true = none := by
  unfold add_to_history
  rw [build_line_eq, long_line_with_amp, if_neg (Nat.lt_irrefl _)]
  rfl

/-- The second pass of the failing run of C18: with the long line at index 0,
the line `!0 &` recalls it with the flag still set, and the line to record no
longer fits. -/
theorem recall_long_line_with_amp (st : ShellState)
    (hstore : st.store = ⟨long_line :: List.replicate 9 [], 1⟩)
    (hbuf : st.input_buffer.length = COMMAND_LENGTH) (hcwd : st.cwd = "/tmp".toList) :
    (∃ l r, read_command st.input_buffer "!0 &\n".toList = some l
      ∧ main_recall st.store l = some r
      ∧ token_strings r.1.input_buffer r.1.tokens = [long_line]
      ∧ r.1.in_background = true)
    ∧ main_iteration sample_env ⟨some "!0 &\n".toList, true⟩ st = none := by
  obtain ⟨l, hl, hs, hc, hb⟩ := read_command_spec st.input_buffer "!0 &\n".toList
    (by decide) (by decide) (by decide)
  have hval : spec_extract (spec_tokens (spec_strip_newline "!0 &\n".toList))
      = (["!0".toList], true) := by decide
  rw [hval] at hs hc hb
  have hlb := read_command_buffer_length _ _ l hbuf hl
  have htok0 : cstr l.input_buffer (l.tokens.getD 0 0) = '!' :: "0".toList :=
    first_token _ _ _ _ hs
  obtain ⟨r, hr, hrs, _, hrb, _⟩ := retrieve_cmd_line (long_line :: List.replicate 9 []) 0 l
    long_line (by decide) rfl
    (fun c hcm => by rw [long_line_chars c hcm]; decide)
    (by rw [long_line_length]; decide) hlb
  rw [spec_tokens_long_line, spec_extract_long_line] at hrs
  have hflag : r.1.in_background = true := by rw [hrb, hb]; rfl
  have hrec : main_recall st.store l = some r := by
    rw [main_recall_index st.store l "0".toList htok0 (by decide) (by decide),
      history_select_digits "0".toList st.store l (by decide) (by decide), hstore]
    have hatoi : atoi "0".toList = 0 := by decide
    simp only [hatoi]
    rw [if_neg (by decide), if_pos (by decide)]
    exact hr
  refine ⟨⟨l, r, hl, hrec, hrs, hflag⟩, ?_⟩
  rw [main_iteration_step sample_env ⟨some "!0 &\n".toList, true⟩ st _ l r
    (by rw [hcwd]; decide) rfl hl (by rw [hc]; decide) hrec, hrs, hflag,
    add_long_line_with_amp]
  rfl

theorem sprintf_d_nat (i : Nat) : sprintf_d (i : Int) = (Nat.repr i).toList := by
  have h : ¬ (i : Int) < 0 := by omega
  unfold sprintf_d
  rw [if_neg h]
  rfl

theorem main_dispatch_history (env : Env) (fork_ok : Bool) (st : ShellState)
    (token_count : Nat) (args : List (List Char)) (in_background : Bool) :
    main_dispatch env fork_ok st token_count ("history".toList :: args) in_background
      = some ⟨st, history_cmd st.store.history token_count (st.store.history_count - 1),
          none⟩ := by
  have h1 : ¬ "history".toList = "exit".toList := by decide
  have h2 : ¬ "history".toList = "pwd".toList := by decide
  have h3 : ¬ "history".toList = "cd".toList := by decide
  have h4 : ¬ "history".toList = "help".toList := by decide
  simp only [main_dispatch, if_neg h1, if_neg h2, if_neg h3, if_neg h4, if_true]

/-! ## Claims -/

set_option maxRecDepth 100000

/-- C1: on a buffer holding a NUL-free line of fewer than `COMMAND_LENGTH`
characters, `tokenize_command` leaves token pointers whose strings are exactly
the maximal delimiter-free runs of the line, in order, and returns their
number; every token is non-empty and free of delimiters; the count is zero
exactly when every character of the line (if any) is a delimiter; and the line
of two spaces, `ls`, two spaces, `-l`, a space and a newline gives `ls`, `-l`
and count 2. -/
theorem tokenize_command_spec (s rest : List Char) (hnul : ∀ c ∈ s, c ≠ NUL)
    (hlen : s.length < COMMAND_LENGTH) :
    token_strings (tokenize_command (s ++ NUL :: rest)).buff
        (tokenize_command (s ++ NUL :: rest)).tokens = spec_tokens s
    ∧ (tokenize_command (s ++ NUL :: rest)).token_count = (spec_tokens s).length
    ∧ (∀ t ∈ token_strings (tokenize_command (s ++ NUL :: rest)).buff
          (tokenize_command (s ++ NUL :: rest)).tokens,
        t ≠ [] ∧ ∀ c ∈ t, is_delimiter c = false)
    ∧ ((tokenize_command (s ++ NUL :: rest)).token_count = 0
        ↔ ∀ c ∈ s, is_delimiter c = true)
    ∧ token_strings (tokenize_command ("  ls  -l \n".toList ++ [NUL])).buff
        (tokenize_command ("  ls  -l \n".toList ++ [NUL])).tokens = ["ls".toList, "-l".toList]
    ∧ (tokenize_command ("  ls  -l \n".toList ++ [NUL])).token_count = 2 := by
  have h1 := token_strings_tokenize s rest hnul hlen
  have h2 := token_count_tokenize s rest hnul hlen
  refine ⟨h1, h2, ?_, ?_, by decide, by decide⟩
  · intro t ht
    rw [h1] at ht
    exact spec_tokens_mem s t ht
  · rw [h2, List.length_eq_zero]
    exact spec_tokens_eq_nil_iff s

/-- Witness of C1 at the line `a b`. -/
theorem tokenize_command_spec_witness :
    token_strings (tokenize_command ("a b".toList ++ NUL :: [])).buff
        (tokenize_command ("a b".toList ++ NUL :: [])).tokens = spec_tokens "a b".toList
    ∧ (tokenize_command ("a b".toList ++ NUL :: [])).token_count
        = (spec_tokens "a b".toList).length :=
  have h := tokenize_command_spec "a b".toList [] (by decide) (by decide)
  ⟨h.1, h.2.1⟩

/-- C2: a non-empty list of non-empty, delimiter-free tokens and a flag, as
the line reader produces them (a final ampersand token has been moved into the
flag, and the line fits the buffer), stored by `add_to_history` at logical
index `N = history_count` and recalled by `retrieve_cmd(N)`, comes back as the
same token list with the same token count, without any error output. -/
theorem store_recall_round_trip (st : HistoryStore) (l : Locals) (t : List (List Char))
    (b : Bool) (hne : t ≠ [])
    (htok : ∀ tok ∈ t, tok ≠ [] ∧ ∀ c ∈ tok, c ≠ NUL ∧ is_delimiter c = false)
    (hamp : b = false → t.getLast? ≠ some "&".toList)
    (hfit : (spec_line t b).length < COMMAND_LENGTH)
    (hlo : 0 ≤ st.history_count) (hhi : st.history_count < INT_MAX)
    (hslots : st.history.length = HISTORY_DEPTH)
    (hbuf : l.input_buffer.length = COMMAND_LENGTH) :
    ∃ st1 r, add_to_history st t b = some st1
      ∧ st1.history_count = st.history_count + 1
      ∧ retrieve_cmd st1.history st.history_count l = some r
      ∧ token_strings r.1.input_buffer r.1.tokens = t
      ∧ r.1.token_count = t.length
      ∧ r.2 = [] := by
  have hadd := add_to_history_eq st t b hne hfit hlo hhi
  have hidx : st.history_count.toNat % HISTORY_DEPTH < st.history.length := by
    rw [hslots]; exact toNat_mod_depth _
  have hfree : ∀ tok ∈ t, tok ≠ [] ∧ ∀ c ∈ tok, is_delimiter c = false :=
    fun tok h => ⟨(htok tok h).1, fun c hc => ((htok tok h).2 c hc).2⟩
  have hnul : ∀ c ∈ spec_line t b, c ≠ NUL :=
    spec_line_nul_free t b (fun tok h c hc => ((htok tok h).2 c hc).1)
  obtain ⟨r, hr, hs, hn, _, hout⟩ := retrieve_cmd_line
    (st.history.set (st.history_count.toNat % HISTORY_DEPTH) (spec_line t b))
    st.history_count l (spec_line t b) hlo (getD_set_self _ _ _ hidx) hnul hfit hbuf
  have htoks := spec_tokens_spec_line t b hne hfree
  have hext : (spec_extract (spec_tokens (spec_line t b))).1 = t := by
    rw [htoks]
    cases b with
    | true => simp only [if_true]; rw [spec_extract_append_amp]
    | false =>
      have h := hamp rfl
      simp only [Bool.false_eq_true, if_false, List.append_nil]
      unfold spec_extract
      rw [if_neg h]
  refine ⟨_, r, hadd, rfl, hr, ?_, ?_, ?_⟩
  · rw [hs, hext]
  · rw [hn, hext]
  · rw [hout, htoks]
    have : t ++ (if b = true then ["&".toList] else []) ≠ [] := by simp [hne]
    rw [if_neg this]

/-- Witness of C2: the tokens `ls`, `-l` with the background flag, stored in
the empty store and recalled. -/
theorem store_recall_round_trip_witness :
    ∃ st1 r, add_to_history empty_store ["ls".toList, "-l".toList] true = some st1
      ∧ st1.history_count = empty_store.history_count + 1
      ∧ retrieve_cmd st1.history empty_store.history_count
          ⟨List.replicate COMMAND_LENGTH NUL, [], 0, false⟩ = some r
      ∧ token_strings r.1.input_buffer r.1.tokens = ["ls".toList, "-l".toList]
      ∧ r.1.token_count = ["ls".toList, "-l".toList].length
      ∧ r.2 = [] :=
  store_recall_round_trip empty_store ⟨List.replicate COMMAND_LENGTH NUL, [], 0, false⟩
    ["ls".toList, "-l".toList] true (by decide) (by decide) (by decide) (by decide)
    (by decide) (by decide) (by decide) (by simp)

/-- C3: starting from the empty store, after `n` calls of `add_to_history`
that record the lines `s_0 .. s_(n-1)` (each fitting a slot, `n` within `int`),
`history_count = n` and for every logical index `i` with
`max(0, n - HISTORY_DEPTH) <= i < n` slot `i mod HISTORY_DEPTH` holds exactly
`s_i`. -/
theorem history_window_invariant (calls : List (List (List Char) × Bool))
    (hcalls : ∀ c ∈ calls, c.1 ≠ [] ∧ (spec_line c.1 c.2).length < COMMAND_LENGTH)
    (hmax : (calls.length : Int) ≤ INT_MAX) :
    ∃ st, record_all empty_store calls = some st
      ∧ st.history_count = calls.length
      ∧ ∀ (i : Nat) (c : List (List Char) × Bool), calls[i]? = some c →
          (calls.length : Int) - HISTORY_DEPTH ≤ i →
          st.history.getD (i % HISTORY_DEPTH) [] = spec_line c.1 c.2 := by
  obtain ⟨st, hrun, hcount, _, hwin⟩ := record_all_window calls hcalls hmax
  exact ⟨st, hrun, hcount, fun i c hi hlow => hwin i c hi (by omega)⟩

/-- Witness of C3: twelve recorded commands. -/
theorem history_window_invariant_witness :
    ∃ st, record_all empty_store (List.replicate 12 (["ls".toList], false)) = some st
      ∧ st.history_count = (List.replicate 12 (["ls".toList], false)).length
      ∧ ∀ (i : Nat) (c : List (List Char) × Bool),
          (List.replicate 12 (["ls".toList], false))[i]? = some c →
          ((List.replicate 12 (["ls".toList], false)).length : Int) - HISTORY_DEPTH ≤ i →
          st.history.getD (i % HISTORY_DEPTH) [] = spec_line c.1 c.2 :=
  history_window_invariant (List.replicate 12 (["ls".toList], false))
    (by decide) (by decide)

/-- C6: after `n >= 1` recorded commands (each line fitting a slot, `n` within
`int`), the dispatch of `main` for the command `history` without argument
prints exactly `min(n, HISTORY_DEPTH)` entries, most recent first, entry `k`
being the decimal digits of the logical index `n - 1 - k`, a tab, the line
recorded at that index and a newline; with a token count above one it prints
only the usage error.  After the twelve commands `c0` .. `c11` the pass that
reads `history` records it as the thirteenth and lists the ten entries 12 down
to 3. -/
theorem history_cmd_lists_window (calls : List (List (List Char) × Bool))
    (hcalls : ∀ c ∈ calls, c.1 ≠ [] ∧ (spec_line c.1 c.2).length < COMMAND_LENGTH)
    (hmax : (calls.length : Int) ≤ INT_MAX) (hne : calls ≠ []) :
    (∃ store, record_all empty_store calls = some store
      ∧ (∀ (env : Env) (fork_ok : Bool) (previous_dir input_buffer cwd : List Char)
            (in_background : Bool),
          main_dispatch env fork_ok ⟨store, previous_dir, input_buffer, cwd⟩ 1
              ["history".toList] in_background
            = some ⟨⟨store, previous_dir, input_buffer, cwd⟩,
                (List.range (min calls.length HISTORY_DEPTH)).flatMap (fun k =>
                  [Effect.write (Nat.repr (calls.length - 1 - k)).toList,
                   Effect.write "\t".toList,
                   Effect.write ((calls.map (fun c => spec_line c.1 c.2)).getD
                     (calls.length - 1 - k) []),
                   Effect.write "\n".toList]),
                none⟩)
      ∧ (∀ (env : Env) (fork_ok : Bool) (previous_dir input_buffer cwd : List Char)
            (in_background : Bool) (token_count : Nat) (args : List (List Char)),
          token_count > 1 →
          main_dispatch env fork_ok ⟨store, previous_dir, input_buffer, cwd⟩ token_count
              ("history".toList :: args) in_background
            = some ⟨⟨store, previous_dir, input_buffer, cwd⟩,
                write_line "Error: history does not accept any arguments", none⟩))
    ∧ record_all empty_store
        [(["c0".toList], false), (["c1".toList], false), (["c2".toList], false),
          (["c3".toList], false), (["c4".toList], false), (["c5".toList], false),
          (["c6".toList], false), (["c7".toList], false), (["c8".toList], false),
          (["c9".toList], false), (["c10".toList], false), (["c11".toList], false)]
        = some ⟨["c10".toList, "c11".toList, "c2".toList, "c3".toList, "c4".toList,
             "c5".toList, "c6".toList, "c7".toList, "c8".toList, "c9".toList], 12⟩
    ∧ (main_iteration sample_env ⟨some "history\n".toList, true⟩
          ⟨⟨["c10".toList, "c11".toList, "c2".toList, "c3".toList, "c4".toList,
             "c5".toList, "c6".toList, "c7".toList, "c8".toList, "c9".toList], 12⟩, [], List.replicate COMMAND_LENGTH NUL, "/tmp".toList⟩).map
            (fun o => (o.state.store.history_count, o.effects))
        = some (13,
          [Effect.write "/tmp".toList, Effect.write "$ ".toList,
           Effect.write "12".toList, Effect.write "\t".toList,
           Effect.write "history".toList, Effect.write "\n".toList,
           Effect.write "11".toList, Effect.write "\t".toList,
           Effect.write "c11".toList, Effect.write "\n".toList,
           Effect.write "10".toList, Effect.write "\t".toList,
           Effect.write "c10".toList, Effect.write "\n".toList,
           Effect.write "9".toList, Effect.write "\t".toList,
           Effect.write "c9".toList, Effect.write "\n".toList,
           Effect.write "8".toList, Effect.write "\t".toList,
           Effect.write "c8".toList, Effect.write "\n".toList,
           Effect.write "7".toList, Effect.write "\t".toList,
           Effect.write "c7".toList, Effect.write "\n".toList,
           Effect.write "6".toList, Effect.write "\t".toList,
           Effect.write "c6".toList, Effect.write "\n".toList,
           Effect.write "5".toList, Effect.write "\t".toList,
           Effect.write "c5".toList, Effect.write "\n".toList,
           Effect.write "4".toList, Effect.write "\t".toList,
           Effect.write "c4".toList, Effect.write "\n".toList,
           Effect.write "3".toList, Effect.write "\t".toList,
           Effect.write "c3".toList, Effect.write "\n".toList]) := by
  refine ⟨?_, by decide, by decide⟩
  obtain ⟨st, hrun, hcount, _, hwin⟩ := record_all_window calls hcalls hmax
  have hpos : 0 < calls.length := List.length_pos.mpr hne
  refine ⟨st, hrun, ?_, ?_⟩
  · intro env fork_ok previous_dir input_buffer cwd in_background
    have hcast : st.history_count - 1 = ((calls.length - 1 : Nat) : Int) := by
      rw [hcount]; omega
    have hnot : ¬ 1 > 1 := by omega
    have hmin : min HISTORY_DEPTH (calls.length - 1 + 1) = min calls.length HISTORY_DEPTH := by
      omega
    rw [main_dispatch_history]
    simp only [history_cmd, if_neg hnot, hcast, history_cmd_loop_eq, hmin]
    congr 2
    apply List.flatMap_congr
    intro k hk
    rw [List.mem_range] at hk
    have hi : calls.length - 1 - k < calls.length := by omega
    have hget : calls[calls.length - 1 - k]? = some (calls[calls.length - 1 - k]) :=
      List.getElem?_eq_getElem hi
    rw [hwin _ _ hget (by omega)]
    simp [history_entry, sprintf_d_nat, List.getD_eq_getElem?_getD, List.getElem?_map, hget]
  · intro env fork_ok previous_dir input_buffer cwd in_background token_count args htc
    rw [main_dispatch_history]
    simp only [history_cmd, if_pos htc]

/-- Witness of C6: thirteen recorded commands, the last one `history`. -/
theorem history_cmd_lists_window_witness :
    ∃ store, record_all empty_store (List.replicate 13 (["history".toList], false)) = some store
      ∧ (∀ (env : Env) (fork_ok : Bool) (previous_dir input_buffer cwd : List Char)
            (in_background : Bool),
          main_dispatch env fork_ok ⟨store, previous_dir, input_buffer, cwd⟩ 1
              ["history".toList] in_background
            = some ⟨⟨store, previous_dir, input_buffer, cwd⟩,
                (List.range (min (List.replicate 13 (["history".toList], false)).length
                    HISTORY_DEPTH)).flatMap (fun k =>
                  [Effect.write (Nat.repr
                     ((List.replicate 13 (["history".toList], false)).length - 1 - k)).toList,
                   Effect.write "\t".toList,
                   Effect.write (((List.replicate 13 (["history".toList], false)).map
                     (fun c => spec_line c.1 c.2)).getD
                       ((List.replicate 13 (["history".toList], false)).length - 1 - k) []),
                   Effect.write "\n".toList]),
                none⟩) :=
  match (history_cmd_lists_window (List.replicate 13 (["history".toList], false))
    (by decide) (by decide) (by decide)).1 with
  | ⟨store, hrun, hlist, _⟩ => ⟨store, hrun, hlist⟩

/-- C7, counterexample: with the flag set, a token of 1022 characters makes a
line of 1024 characters, which `add_to_history` cannot build in
`char str[COMMAND_LENGTH]`; no slot is written as the claim describes. -/
theorem add_to_history_overflow :
    (spec_line [List.replicate 1022 'a'] true).length = COMMAND_LENGTH
    ∧ add_to_history ⟨List.replicate 1022 'a' :: List.replicate 9 [], 1⟩
        [List.replicate 1022 'a'] true = none := by
  have hlen : (spec_line [List.replicate 1022 'a'] true).length = COMMAND_LENGTH := by
    rw [spec_line_cons]
    simp only [List.length_append, List.length_replicate, List.flatMap_nil, List.length_nil,
      if_true, List.length_cons]
    rfl
  refine ⟨hlen, ?_⟩
  unfold add_to_history
  rw [build_line_eq, hlen, if_neg (Nat.lt_irrefl _)]
  rfl

/-- C7, amended: for a non-empty token list whose joined line (a space and an
ampersand appended for a background command) has fewer than `COMMAND_LENGTH`
characters and a counter `0 <= c < INT_MAX`, `add_to_history` writes that line
into slot `c mod HISTORY_DEPTH`, sets the counter to `c + 1` and leaves the
other slots unchanged. -/
theorem add_to_history_frame (st : HistoryStore) (t : List (List Char)) (b : Bool)
    (hne : t ≠ []) (hfit : (spec_line t b).length < COMMAND_LENGTH)
    (hlo : 0 ≤ st.history_count) (hhi : st.history_count < INT_MAX)
    (hslots : st.history.length = HISTORY_DEPTH) :
    ∃ st1, add_to_history st t b = some st1
      ∧ st1.history.getD (st.history_count.toNat % HISTORY_DEPTH) []
          = " ".toList.intercalate t ++ (if b then " &".toList else [])
      ∧ st1.history_count = st.history_count + 1
      ∧ st1.history.length = HISTORY_DEPTH
      ∧ ∀ j, j ≠ st.history_count.toNat % HISTORY_DEPTH →
          st1.history.getD j [] = st.history.getD j [] := by
  refine ⟨_, add_to_history_eq st t b hne hfit hlo hhi, ?_, rfl, ?_, ?_⟩
  · exact getD_set_self _ _ _ (by rw [hslots]; exact toNat_mod_depth _)
  · simp [hslots]
  · intro j hj
    exact getD_set_other _ _ _ _ (Ne.symm hj)

/-- Witness of C7 (amended): recording `ls -l` in the background at counter
zero. -/
theorem add_to_history_frame_witness :
    ∃ st1, add_to_history empty_store ["ls".toList, "-l".toList] true = some st1
      ∧ st1.history.getD (empty_store.history_count.toNat % HISTORY_DEPTH) []
          = " ".toList.intercalate ["ls".toList, "-l".toList]
              ++ (if true then " &".toList else [])
      ∧ st1.history_count = empty_store.history_count + 1
      ∧ st1.history.length = HISTORY_DEPTH
      ∧ ∀ j, j ≠ empty_store.history_count.toNat % HISTORY_DEPTH →
          st1.history.getD j [] = empty_store.history.getD j [] :=
  add_to_history_frame empty_store ["ls".toList, "-l".toList] true (by decide) (by decide)
    (by decide) (by decide) (by decide)

/-- C8: `read_command`, on an input line that tokenizes to `n` tokens (any
`n`, in particular `n >= 1`), returns the first `n - 1` tokens, count `n - 1` and the flag set when the last
token is exactly an ampersand, and otherwise the tokens and count unchanged
with the flag clear; a line ending in two ampersand tokens keeps one of them,
and a token that merely ends in an ampersand is not taken for the flag. -/
theorem read_command_trailing_amp (buff data : List Char) (hne : data ≠ [])
    (hnul : ∀ c ∈ data, c ≠ NUL) (hlen : data.length ≤ COMMAND_LENGTH - 1) :
    (∃ l, read_command buff data = some l
      ∧ (if (spec_tokens (spec_strip_newline data)).getLast? = some "&".toList then
          token_strings l.input_buffer l.tokens
              = (spec_tokens (spec_strip_newline data)).dropLast
            ∧ l.token_count = (spec_tokens (spec_strip_newline data)).length - 1
            ∧ l.in_background = true
        else
          token_strings l.input_buffer l.tokens = spec_tokens (spec_strip_newline data)
            ∧ l.token_count = (spec_tokens (spec_strip_newline data)).length
            ∧ l.in_background = false))
    ∧ (read_command (List.replicate COMMAND_LENGTH NUL) "a & &\n".toList).map
          (fun l => (token_strings l.input_buffer l.tokens, l.token_count, l.in_background))
        = some (["a".toList, "&".toList], 2, true)
    ∧ (read_command (List.replicate COMMAND_LENGTH NUL) "a&\n".toList).map
          (fun l => (token_strings l.input_buffer l.tokens, l.token_count, l.in_background))
        = some (["a&".toList], 1, false) := by
  refine ⟨?_, by decide, by decide⟩
  obtain ⟨l, hl, hs, hc, hb⟩ := read_command_spec buff data hne hnul hlen
  refine ⟨l, hl, ?_⟩
  unfold spec_extract at hs hc hb
  by_cases h : (spec_tokens (spec_strip_newline data)).getLast? = some "&".toList
  · simp only [if_pos h] at hs hc hb ⊢
    exact ⟨hs, by rw [hc, List.length_dropLast], hb⟩
  · simp only [if_neg h] at hs hc hb ⊢
    exact ⟨hs, hc, hb⟩

/-- Witness of C8: the line `ls &`. -/
theorem read_command_trailing_amp_witness :
    ∃ l, read_command (List.replicate COMMAND_LENGTH NUL) "ls &\n".toList = some l
      ∧ (if (spec_tokens (spec_strip_newline "ls &\n".toList)).getLast? = some "&".toList then
          token_strings l.input_buffer l.tokens
              = (spec_tokens (spec_strip_newline "ls &\n".toList)).dropLast
            ∧ l.token_count = (spec_tokens (spec_strip_newline "ls &\n".toList)).length - 1
            ∧ l.in_background = true
        else
          token_strings l.input_buffer l.tokens = spec_tokens (spec_strip_newline "ls &\n".toList)
            ∧ l.token_count = (spec_tokens (spec_strip_newline "ls &\n".toList)).length
            ∧ l.in_background = false) :=
  (read_command_trailing_amp (List.replicate COMMAND_LENGTH NUL) "ls &\n".toList
    (by decide) (by decide) (by decide)).1

/-- C4: at the failing input, a shell that has recorded `ls` and then reads
`!4294967296`, the suffix is a digit string denoting an index far outside the
window, yet `history_select` reports no error and recalls slot 0, because `atoi`
returns an `int` and 2^32 wraps to 0; the pass runs `ls` again and records it
a second time. -/
theorem history_select_wraps :
    digits_value 0 "4294967296".toList = 4294967296
    ∧ ¬ ((4294967296 : Int) < 1)
    ∧ atoi "4294967296".toList = 0
    ∧ (∃ r, history_select "4294967296".toList ⟨"ls".toList :: List.replicate 9 [], 1⟩
          ⟨"!4294967296".toList ++ List.replicate 1013 NUL, [0], 1, false⟩ = some r
        ∧ token_strings r.1.input_buffer r.1.tokens = ["ls".toList]
        ∧ r.2 = [])
    ∧ (main_iteration sample_env ⟨some "ls\n".toList, true⟩
          (initial_state (List.replicate COMMAND_LENGTH NUL) "/tmp".toList)).bind
            (fun o => (main_iteration sample_env ⟨some "!4294967296\n".toList, true⟩
              o.state).map (fun o2 => (o2.state.store, o2.effects)))
        = some (⟨"ls".toList :: "ls".toList :: List.replicate 8 [], 2⟩,
            [Effect.write "/tmp".toList, Effect.write "$ ".toList,
             Effect.fork_exec ["ls".toList], Effect.wait_child, Effect.reap_all]) := by
  refine ⟨by decide, by decide, by decide, ?_, by decide⟩
  have hatoi : atoi "4294967296".toList = 0 := by decide
  have hsel := history_select_digits "4294967296".toList
    ⟨"ls".toList :: List.replicate 9 [], 1⟩
    ⟨"!4294967296".toList ++ List.replicate 1013 NUL, [0], 1, false⟩ (by decide) (by decide)
  rw [hatoi] at hsel
  simp only [HISTORY_DEPTH] at hsel
  rw [if_neg (by decide), if_pos (by decide)] at hsel
  obtain ⟨r, hr, hs, _, _, hout⟩ := retrieve_cmd_line ("ls".toList :: List.replicate 9 []) 0
    ⟨"!4294967296".toList ++ List.replicate 1013 NUL, [0], 1, false⟩ "ls".toList
    (by decide) (by decide) (by decide) (by decide)
    (by simp only [List.length_append, List.length_replicate]; rfl)
  refine ⟨r, by rw [hsel]; exact hr, ?_, ?_⟩
  · rw [hs]; decide
  · rw [hout]; decide

/-- The cases of `history_select`: it reports the malformed-reference error
exactly when the suffix is empty or contains a non-digit, for every suffix;
for a digit string whose number `N` fits an `int` it recalls through
`retrieve_cmd` at index `N` when `history_count - HISTORY_DEPTH <= N <
history_count`, and otherwise reports "No previous command" for
`history_count = 0` and "History index not found" else, whatever the slots
hold. -/
theorem history_select_cases (num : List Char) (st : HistoryStore) (l : Locals) :
    ((history_select num st l).map Prod.snd
        = some (write_line "Error: ! must be immediately followed by a number")
      ↔ (num = [] ∨ ∃ c ∈ num, c.isDigit = false))
    ∧ ((num = [] ∨ ∃ c ∈ num, c.isDigit = false) → ∀ slots : List (List Char),
        history_select num ⟨slots, st.history_count⟩ l
          = some (l, write_line "Error: ! must be immediately followed by a number"))
    ∧ (num ≠ [] → (∀ c ∈ num, c.isDigit = true) →
        (digits_value 0 num : Int) ≤ INT_MAX →
        (st.history_count - HISTORY_DEPTH ≤ (digits_value 0 num : Int)
            ∧ (digits_value 0 num : Int) < st.history_count →
          history_select num st l = retrieve_cmd st.history (digits_value 0 num : Int) l)
        ∧ (¬ (st.history_count - HISTORY_DEPTH ≤ (digits_value 0 num : Int)
            ∧ (digits_value 0 num : Int) < st.history_count) →
          ∀ slots : List (List Char), history_select num ⟨slots, st.history_count⟩ l
            = some (l, if st.history_count = 0 then write_line "Error: No previous command"
                       else write_line "Error: History index not found"))) := by
  refine ⟨⟨?_, ?_⟩, ?_, ?_⟩
  · intro h
    by_contra hcon
    have hne : num ≠ [] := fun h0 => hcon (Or.inl h0)
    have hdig : ∀ c ∈ num, c.isDigit = true := by
      intro c hc
      cases hd : c.isDigit with
      | true => rfl
      | false => exact absurd (Or.inr ⟨c, hc, hd⟩) hcon
    rw [history_select_digits num st l hne hdig] at h
    by_cases h0 : st.history_count = 0
    · rw [if_pos h0] at h
      simp only [Option.map_some', Option.some.injEq] at h
      revert h
      decide
    · rw [if_neg h0] at h
      by_cases hw : atoi num < st.history_count ∧ atoi num ≥ st.history_count - HISTORY_DEPTH
      · rw [if_pos hw] at h
        cases hr : retrieve_cmd st.history (atoi num) l with
        | none => rw [hr] at h; exact absurd h (by simp)
        | some r =>
          rw [hr] at h
          simp only [Option.map_some', Option.some.injEq] at h
          rcases retrieve_cmd_output _ _ _ _ hr with h1 | h1
          · rw [h1] at h; revert h; decide
          · rw [h1] at h; revert h; decide
      · rw [if_neg hw] at h
        simp only [Option.map_some', Option.some.injEq] at h
        revert h
        decide
  · intro h
    rw [history_select_malformed num st l h]
    rfl
  · intro h slots
    exact history_select_malformed num _ l h
  · intro hne hdig hfit
    have hatoi := atoi_of_small num hfit
    refine ⟨?_, ?_⟩
    · intro hw
      rw [history_select_digits num st l hne hdig, hatoi]
      have h0 : ¬ st.history_count = 0 := by
        unfold HISTORY_DEPTH at hw
        omega
      rw [if_neg h0, if_pos ⟨hw.2, hw.1⟩]
    · intro hw slots
      rw [history_select_digits num _ l hne hdig, hatoi]
      simp only
      by_cases h0 : st.history_count = 0
      · rw [if_pos h0, if_pos h0]
      · rw [if_neg h0, if_neg h0, if_neg (fun h => hw ⟨h.2, h.1⟩)]

/-- C5: at the failing input, a fresh shell that reads the line `!!`, the main
loop prints "No previous command" and then records the raw line `!!` in slot 0,
raises `history_count` to 1 and forks a child to run a program called `!!`. -/
theorem failed_recall_recorded_and_launched :
    (main_iteration sample_env ⟨some "!!\n".toList, true⟩
        (initial_state (List.replicate COMMAND_LENGTH NUL) "/tmp".toList)).map
          (fun o => (o.state.store, o.effects, o.exit_status))
      = some (⟨"!!".toList :: List.replicate 9 [], 1⟩,
          [Effect.write "/tmp".toList, Effect.write "$ ".toList,
           Effect.write "Error: No previous command".toList, Effect.write "\n".toList,
           Effect.fork_exec ["!!".toList], Effect.wait_child, Effect.reap_all], none) := by
  decide

/-- C9, counterexample: with `ls` stored at index 0, the line `!0 &` is read
with the flag set, and after the recall the flag is still set although the last
token of the stored line is not an ampersand. -/
theorem recall_keeps_invocation_flag :
    read_command (List.replicate COMMAND_LENGTH NUL) "!0 &\n".toList
        = some ⟨['!', '0', NUL, '&'] ++ List.replicate 1020 NUL, [0], 1, true⟩
    ∧ (main_recall ⟨"ls".toList :: List.replicate 9 [], 1⟩
          ⟨['!', '0', NUL, '&'] ++ List.replicate 1020 NUL, [0], 1, true⟩).map
            (fun r => (token_strings r.1.input_buffer r.1.tokens, r.1.in_background, r.2))
        = some (["ls".toList], true, [])
    ∧ (spec_tokens "ls".toList).getLast? ≠ some "&".toList := by
  decide

/-- C9, amended: after a successful recall, by `!!` with a non-empty history or
by `!N` with `N` in the window, the background flag is set exactly when it was
already set before the recall (the invocation line ended in an ampersand) or
the last token of the stored line is an ampersand. -/
theorem recall_background_flag (st : HistoryStore) (l : Locals) (idx : Int)
    (line : List Char) (hidx : 0 ≤ idx)
    (hslot : st.history.getD (idx.toNat % HISTORY_DEPTH) [] = line)
    (hnul : ∀ c ∈ line, c ≠ NUL) (hlen : line.length < COMMAND_LENGTH)
    (hbuf : l.input_buffer.length = COMMAND_LENGTH)
    (hrecall :
      (cstr l.input_buffer (l.tokens.getD 0 0) = "!!".toList
        ∧ 0 < st.history_count ∧ idx = st.history_count - 1)
      ∨ (∃ num, cstr l.input_buffer (l.tokens.getD 0 0) = '!' :: num
          ∧ num ≠ [] ∧ (∀ c ∈ num, c.isDigit = true)
          ∧ (digits_value 0 num : Int) ≤ INT_MAX ∧ idx = (digits_value 0 num : Int)
          ∧ st.history_count - HISTORY_DEPTH ≤ idx ∧ idx < st.history_count)) :
    ∃ r, main_recall st l = some r
      ∧ r.1.in_background
          = (l.in_background || decide ((spec_tokens line).getLast? = some "&".toList)) := by
  obtain ⟨r, hr, _, _, hflag, _⟩ :=
    retrieve_cmd_line st.history idx l line hidx hslot hnul hlen hbuf
  rw [spec_extract_flag] at hflag
  refine ⟨r, ?_, hflag⟩
  rcases hrecall with ⟨htok, hpos, hi⟩ | ⟨num, htok, hne, hdig, hfit, hi, hlow, hhigh⟩
  · rw [main_recall_bang_bang st l htok, if_neg (by omega), ← hi]
    exact hr
  · rw [main_recall_index st l num htok hne hdig, history_select_digits num st l hne hdig,
      atoi_of_small num hfit, ← hi]
    have h0 : ¬ st.history_count = 0 := by
      unfold HISTORY_DEPTH at hlow
      omega
    rw [if_neg h0, if_pos ⟨hhigh, hlow⟩]
    exact hr

/-- Witness of C9 (amended): `ls` stored at index 0 and the line `!0 &`. -/
theorem recall_background_flag_witness :
    ∃ r, main_recall ⟨"ls".toList :: List.replicate 9 [], 1⟩
          ⟨['!', '0', NUL, '&'] ++ List.replicate 1020 NUL, [0], 1, true⟩ = some r
      ∧ r.1.in_background
          = (true || decide ((spec_tokens "ls".toList).getLast? = some "&".toList)) :=
  recall_background_flag ⟨"ls".toList :: List.replicate 9 [], 1⟩
    ⟨['!', '0', NUL, '&'] ++ List.replicate 1020 NUL, [0], 1, true⟩ 0 "ls".toList
    (by decide) (by decide) (by decide) (by decide)
    (by simp only [List.length_append, List.length_replicate]; rfl)
    (Or.inr ⟨"0".toList, by decide, by decide, by decide, by decide, by decide, by decide,
      by decide⟩)

/-- C10: when the first token is `!!` and `history_count > 0`, the main loop's
handling gives the same buffer, tokens, count, flag and output as
`history_select` on the decimal digits of `history_count - 1`; when
`history_count = 0` it reports "No previous command" and changes nothing, as
`history_select` does for every number. -/
theorem bang_bang_equivalent (st : HistoryStore) (l : Locals)
    (htok : cstr l.input_buffer (l.tokens.getD 0 0) = "!!".toList)
    (hhi : st.history_count ≤ INT_MAX) :
    (0 < st.history_count →
      main_recall st l = history_select (sprintf_d (st.history_count - 1)) st l)
    ∧ (st.history_count = 0 →
        main_recall st l = some (l, write_line "Error: No previous command")
        ∧ ∀ num, num ≠ [] → (∀ c ∈ num, c.isDigit = true) →
            history_select num st l = some (l, write_line "Error: No previous command")) := by
  refine ⟨?_, ?_⟩
  · intro hpos
    have hd := toDigits_spec (st.history_count - 1).toNat
    have hnneg : ¬ st.history_count - 1 < 0 := by omega
    have hfit : (digits_value 0 (Nat.toDigits 10 (st.history_count - 1).toNat) : Int)
        ≤ INT_MAX := by
      rw [hd.2.2]
      omega
    have hval : (digits_value 0 (Nat.toDigits 10 (st.history_count - 1).toNat) : Int)
        = st.history_count - 1 := by
      rw [hd.2.2]
      omega
    unfold sprintf_d
    rw [if_neg hnneg, main_recall_bang_bang st l htok, if_neg (by omega),
      history_select_digits _ st l hd.1 hd.2.1, atoi_of_small _ hfit, hval, if_neg (by omega)]
    have hw : st.history_count - 1 < st.history_count
        ∧ st.history_count - 1 ≥ st.history_count - HISTORY_DEPTH := by
      unfold HISTORY_DEPTH
      omega
    rw [if_pos hw]
  · intro h0
    refine ⟨by rw [main_recall_bang_bang st l htok, if_pos h0], ?_⟩
    intro num hne hdig
    rw [history_select_digits num st l hne hdig, if_pos h0]

/-- Witness of C10: `!!` typed with three commands recorded. -/
theorem bang_bang_equivalent_witness :
    main_recall ⟨List.replicate 10 "ls".toList, 3⟩
        ⟨"!!".toList ++ List.replicate 1022 NUL, [0], 1, false⟩
      = history_select (sprintf_d ((3 : Int) - 1)) ⟨List.replicate 10 "ls".toList, 3⟩
          ⟨"!!".toList ++ List.replicate 1022 NUL, [0], 1, false⟩ :=
  (bang_bang_equivalent ⟨List.replicate 10 "ls".toList, 3⟩
    ⟨"!!".toList ++ List.replicate 1022 NUL, [0], 1, false⟩ (by decide) (by decide)).1
    (by decide)

/-- C14: `exit_cmd` ends the process, with status 0, exactly when the token
count is at most one; with one or more arguments it prints the usage error and
returns; `main` calls it for a first token `exit` and takes over its
outcome. -/
theorem exit_cmd_terminates_iff (token_count : Nat) :
    ((exit_cmd token_count).2 = some 0 ↔ token_count ≤ 1)
    ∧ ((exit_cmd token_count).2 ≠ none ↔ token_count ≤ 1)
    ∧ (token_count > 1 →
        exit_cmd token_count = (write_line "Error: exit does not accept any arguments", none))
    ∧ (token_count ≤ 1 → exit_cmd token_count = (write_line "Exiting...", some 0))
    ∧ (∀ (env : Env) (fork_ok : Bool) (st : ShellState) (args : List (List Char))
          (in_background : Bool),
        main_dispatch env fork_ok st token_count ("exit".toList :: args) in_background
          = some ⟨st, (exit_cmd token_count).1, (exit_cmd token_count).2⟩) := by
  refine ⟨?_, ?_, ?_, ?_, ?_⟩
  · by_cases h : token_count > 1
    · simp only [exit_cmd, if_pos h]
      constructor
      · intro h1; exact absurd h1 (by simp)
      · intro h1; omega
    · simp only [exit_cmd, if_neg h]
      constructor
      · intro _; omega
      · intro _; trivial
  · by_cases h : token_count > 1
    · simp only [exit_cmd, if_pos h]
      constructor
      · intro h1; exact absurd rfl h1
      · intro h1; omega
    · simp only [exit_cmd, if_neg h]
      constructor
      · intro _; omega
      · intro _; simp
  · intro h
    simp only [exit_cmd, if_pos h]
  · intro h
    have h1 : ¬ token_count > 1 := by omega
    simp only [exit_cmd, if_neg h1]
  · intro env fork_ok st args in_background
    simp only [main_dispatch, if_true]

/-- C16: for a buffer holding a NUL-free string of `n <= COMMAND_LENGTH - 1`
characters `tokenize_command` returns a count of at most `ceil(n / 2)`, which
is at most `COMMAND_LENGTH / 2`; the token pointers are written at the indices
below the count and the terminating NULL at the count, all below `NUM_TOKENS`;
and the count stays below `NUM_TOKENS` for every buffer whatever. -/
theorem token_array_bound (s rest : List Char) (hnul : ∀ c ∈ s, c ≠ NUL)
    (hlen : s.length ≤ COMMAND_LENGTH - 1) :
    (tokenize_command (s ++ NUL :: rest)).token_count ≤ (s.length + 1) / 2
    ∧ (s.length + 1) / 2 ≤ COMMAND_LENGTH / 2
    ∧ (tokenize_command (s ++ NUL :: rest)).tokens.length
        = (tokenize_command (s ++ NUL :: rest)).token_count
    ∧ (tokenize_command (s ++ NUL :: rest)).token_count < NUM_TOKENS
    ∧ (∀ buff : List Char, (tokenize_command buff).token_count < NUM_TOKENS) := by
  have hC : COMMAND_LENGTH = 1024 := rfl
  have hN : NUM_TOKENS = 513 := rfl
  have hb := token_count_bound (s ++ NUL :: rest)
  rw [strnlen_content s rest COMMAND_LENGTH hnul (by omega)] at hb
  refine ⟨by omega, by omega, hb.2, by omega, ?_⟩
  intro buff
  have h1 := (token_count_bound buff).1
  have h2 := strnlen_le buff COMMAND_LENGTH
  omega

/-- Witness of C16: a line of three one-letter tokens. -/
theorem token_array_bound_witness :
    (tokenize_command ("a b c".toList ++ NUL :: [])).token_count ≤ ("a b c".toList.length + 1) / 2
    ∧ ("a b c".toList.length + 1) / 2 ≤ COMMAND_LENGTH / 2
    ∧ (tokenize_command ("a b c".toList ++ NUL :: [])).tokens.length
        = (tokenize_command ("a b c".toList ++ NUL :: [])).token_count
    ∧ (tokenize_command ("a b c".toList ++ NUL :: [])).token_count < NUM_TOKENS :=
  have h := token_array_bound "a b c".toList [] (by decide) (by decide)
  ⟨h.1, h.2.1, h.2.2.1, h.2.2.2.1⟩

/-- C11: at the failing input, a fresh shell that reads `cd -`, the program
does not report "No previous directory": it calls `chdir` with the empty string
and reports that directory `''` does not exist; and for no environment and no
previous directory does the `-` argument lead to the "No previous directory"
return, because the test compares the address of an array with NULL. -/
theorem cd_dash_unset_calls_chdir :
    (main_iteration sample_env ⟨some "cd -\n".toList, true⟩
        (initial_state (List.replicate COMMAND_LENGTH NUL) "/tmp".toList)).map
          (fun o => (o.state.previous_dir, o.state.cwd, o.effects))
      = some ([], "/tmp".toList,
          [Effect.write "/tmp".toList, Effect.write "$ ".toList, Effect.chdir [],
           Effect.write "Error: Directory '".toList, Effect.write [],
           Effect.write "' does not exist".toList, Effect.write "\n".toList])
    ∧ ∀ (env : Env) (P : List Char), cd_target env P "-".toList ≠ some none := by
  refine ⟨by decide, ?_⟩
  intro env P
  have h : cd_target env P "-".toList = (strcat COMMAND_LENGTH [] P).map some := by
    simp [cd_target, previous_dir_is_null]
  rw [h]
  cases strcat COMMAND_LENGTH [] P <;> simp

/-- C12, counterexample: with the home directory `/home/user`, the argument
made of a tilde and 1014 letters asks for a target of 1024 characters, which
`cd_cmd` cannot build in `char dir_str[COMMAND_LENGTH]`; no directory change
with the target `H ++ r` takes place. -/
theorem cd_tilde_overflow :
    (sample_env.home ++ List.replicate 1014 'a').length = COMMAND_LENGTH
    ∧ cd_cmd sample_env 2 ["cd".toList, '~' :: List.replicate 1014 'a'] [] "/tmp".toList
        = none :=
  ⟨by simp only [List.length_append, List.length_replicate]; rfl,
   cd_cmd_long_tilde [] "/tmp".toList⟩

/-- C12, amended: for a home directory `H` and a previous directory `P` that
fit `COMMAND_LENGTH` bytes, `cd_cmd` passes to `chdir`: `H` with no argument;
`P` for the argument `-`; `H` for `~`; `H ++ r` for a tilde followed by a
non-empty `r`, provided `H ++ r` has fewer than `COMMAND_LENGTH` characters;
the argument itself for any other argument; and with two or more arguments it
prints the usage error, changes nothing and calls no `chdir`. -/
theorem cd_target_resolution (env : Env) (cmd P cwd : List Char)
    (hH : env.home.length < COMMAND_LENGTH) (hP : P.length < COMMAND_LENGTH) :
    cd_cmd env 1 [cmd] P cwd
        = cd_change env (save_cwd cwd).1 (save_cwd cwd).2 env.home P cwd
    ∧ cd_cmd env 2 [cmd, "-".toList] P cwd
        = cd_change env (save_cwd cwd).1 (save_cwd cwd).2 P P cwd
    ∧ cd_cmd env 2 [cmd, "~".toList] P cwd
        = cd_change env (save_cwd cwd).1 (save_cwd cwd).2 env.home P cwd
    ∧ (∀ r : List Char, r ≠ [] → (env.home ++ r).length < COMMAND_LENGTH →
        cd_cmd env 2 [cmd, '~' :: r] P cwd
          = cd_change env (save_cwd cwd).1 (save_cwd cwd).2 (env.home ++ r) P cwd)
    ∧ (∀ a : List Char, a ≠ "-".toList → a.head? ≠ some '~' → a.length < COMMAND_LENGTH →
        cd_cmd env 2 [cmd, a] P cwd
          = cd_change env (save_cwd cwd).1 (save_cwd cwd).2 a P cwd)
    ∧ (∀ tokens : List (List Char), 3 ≤ tokens.length →
        cd_cmd env tokens.length tokens P cwd
            = some (P, cwd, (save_cwd cwd).2
                ++ write_line "Error: cd only accepts 0 or 1 arguments")
          ∧ ∀ dir, Effect.chdir dir ∉ (save_cwd cwd).2
                ++ write_line "Error: cd only accepts 0 or 1 arguments")
    ∧ (∀ (saved : Option (List Char)) (out : List Effect) (t : List Char)
          (r : List Char × List Char × List Effect),
        cd_change env saved out t P cwd = some r → Effect.chdir t ∈ r.2.2) := by
  refine ⟨?_, ?_, ?_, ?_, ?_, ?_, ?_⟩
  · simp [cd_cmd, get_home_ok env hH]
  · rw [cd_cmd_one_arg, cd_target_dash env P hP]
    rfl
  · rw [cd_cmd_one_arg, cd_target_home env P hH]
    rfl
  · intro r hr hfit
    rw [cd_cmd_one_arg, cd_target_tilde env P r hr hH hfit]
    rfl
  · intro a hdash htilde hfit
    rw [cd_cmd_one_arg, cd_target_verbatim env P a hdash htilde hfit]
    rfl
  · intro tokens hlen
    have h1 : ¬ tokens.length = 1 := by omega
    have h2 : tokens.length ≠ 2 := by omega
    refine ⟨by simp only [cd_cmd, if_neg h1, if_pos h2], ?_⟩
    intro dir hmem
    unfold save_cwd at hmem
    cases hg : getcwd cwd with
    | none => rw [hg] at hmem; simp [write_line] at hmem
    | some d => rw [hg] at hmem; simp [write_line] at hmem
  · intro saved out t r hr
    unfold cd_change at hr
    cases hc : env.chdir cwd t with
    | none =>
      rw [hc] at hr
      simp only [Option.some.injEq] at hr
      rw [← hr]
      simp
    | some new_cwd =>
      rw [hc] at hr
      cases saved with
      | none => simp at hr
      | some old =>
        simp only [Option.map_some', Option.some.injEq] at hr
        rw [← hr]
        simp

/-- Witness of C12 (amended): the sample environment with no previous
directory. -/
theorem cd_target_resolution_witness :
    cd_cmd sample_env 1 ["cd".toList] [] "/tmp".toList
        = cd_change sample_env (save_cwd "/tmp".toList).1 (save_cwd "/tmp".toList).2
            sample_env.home [] "/tmp".toList
    ∧ cd_cmd sample_env 2 ["cd".toList, "-".toList] [] "/tmp".toList
        = cd_change sample_env (save_cwd "/tmp".toList).1 (save_cwd "/tmp".toList).2
            [] [] "/tmp".toList :=
  have h := cd_target_resolution sample_env "cd".toList [] "/tmp".toList (by decide) (by decide)
  ⟨h.1, h.2.1⟩

/-- C15, counterexample: the pass that runs the built-in `pwd` emits the
prompt and the directory, and no reap sweep. -/
theorem builtin_pass_does_not_reap :
    (main_iteration sample_env ⟨some "pwd\n".toList, true⟩
        (initial_state (List.replicate COMMAND_LENGTH NUL) "/tmp".toList)).map
          (fun o => o.effects)
      = some [Effect.write "/tmp".toList, Effect.write "$ ".toList,
              Effect.write "/tmp".toList, Effect.write "\n".toList]
    ∧ Effect.reap_all ∉ [Effect.write "/tmp".toList, Effect.write "$ ".toList,
              Effect.write "/tmp".toList, Effect.write "\n".toList] := by
  decide

/-- C15, amended: a pass of the main loop performs the reap sweep exactly when
it launched an external command (a successful `fork`), and then as its last
effect; the dispatch of a built-in (`exit`, `pwd`, `cd`, `help`, `history`)
emits no reap sweep, and the dispatch of any other command, `fork` succeeding,
emits the launch, the wait for a foreground command, and the reap sweep. -/
theorem reap_only_after_launch (env : Env) (inp : Input) (st : ShellState) (o : Outcome)
    (hrun : main_iteration env inp st = some o) :
    (Effect.reap_all ∈ o.effects ↔ ∃ argv, Effect.fork_exec argv ∈ o.effects)
    ∧ (Effect.reap_all ∈ o.effects → o.effects.getLast? = some Effect.reap_all)
    ∧ (∀ (fork_ok : Bool) (st1 : ShellState) (token_count : Nat) (tok0 : List Char)
          (args : List (List Char)) (in_background : Bool) (o1 : Outcome),
        tok0 ∈ builtin_names →
        main_dispatch env fork_ok st1 token_count (tok0 :: args) in_background = some o1 →
        Effect.reap_all ∉ o1.effects)
    ∧ (∀ (st1 : ShellState) (token_count : Nat) (tok0 : List Char)
          (args : List (List Char)) (in_background : Bool),
        tok0 ∉ builtin_names →
        main_dispatch env true st1 token_count (tok0 :: args) in_background
          = some ⟨st1, [Effect.fork_exec (tok0 :: args)]
                  ++ (if in_background then [] else [Effect.wait_child])
                  ++ [Effect.reap_all], none⟩) := by
  obtain ⟨pre, post, heff, hpre, hpost⟩ := main_iteration_effects env inp st o hrun
  have hnoreap : Effect.reap_all ∉ pre := fun h => by
    have := hpre _ h
    simp [is_child_effect] at this
  have hnofork : ∀ argv, Effect.fork_exec argv ∉ pre := fun argv h => by
    have := hpre _ h
    simp [is_child_effect] at this
  refine ⟨?_, ?_, ?_, ?_⟩
  · rw [heff]
    rcases hpost with hnil | ⟨argv, b, hlaunch⟩
    · rw [hnil, List.append_nil]
      exact ⟨fun h => absurd h hnoreap, fun ⟨argv, h⟩ => absurd h (hnofork argv)⟩
    · rw [hlaunch]
      exact ⟨fun _ => ⟨argv, by simp⟩, fun _ => by simp⟩
  · rw [heff]
    rcases hpost with hnil | ⟨argv, b, hlaunch⟩
    · rw [hnil, List.append_nil]
      exact fun h => absurd h hnoreap
    · rw [hlaunch]
      intro _
      cases b <;> simp [List.getLast?_append]
  · intro fork_ok st1 token_count tok0 args in_background o1 hb hd hmem
    have := main_dispatch_builtin env fork_ok st1 token_count tok0 args in_background o1 hb hd
      _ hmem
    simp [is_child_effect] at this
  · intro st1 token_count tok0 args in_background hb
    rw [main_dispatch_external env true st1 token_count tok0 args in_background hb]
    rfl

/-- Witness of C15 (amended): the pass that reads `ls` in a fresh shell. -/
theorem reap_only_after_launch_witness :
    ∃ o, main_iteration sample_env ⟨some "ls\n".toList, true⟩
        (initial_state (List.replicate COMMAND_LENGTH NUL) "/tmp".toList) = some o
      ∧ (Effect.reap_all ∈ o.effects ↔ ∃ argv, Effect.fork_exec argv ∈ o.effects)
      ∧ (Effect.reap_all ∈ o.effects → o.effects.getLast? = some Effect.reap_all) :=
  match h : main_iteration sample_env ⟨some "ls\n".toList, true⟩
      (initial_state (List.replicate COMMAND_LENGTH NUL) "/tmp".toList) with
  | some o =>
    ⟨o, rfl, (reap_only_after_launch sample_env _ _ o h).1,
      (reap_only_after_launch sample_env _ _ o h).2.1⟩
  | none => absurd h (by decide)

/-- C17: at the failing input, a shell that has recorded `ls` and then reads
`!4294967295`, `atoi` returns -1, the window test of `history_select` accepts
it, and `retrieve_cmd` is entered with the index -1, which addresses the bytes
in front of the `history` array: what is tokenized there is no retained line,
and the pass has no defined outcome. -/
theorem wrapped_index_leaves_the_window :
    atoi "4294967295".toList = -1
    ∧ ((-1 : Int) < 1 ∧ (-1 : Int) ≥ 1 - HISTORY_DEPTH)
    ∧ (main_iteration sample_env ⟨some "ls\n".toList, true⟩
          (initial_state (List.replicate COMMAND_LENGTH NUL) "/tmp".toList)).map
            (fun o => (o.state.store, o.exit_status))
        = some (⟨"ls".toList :: List.replicate 9 [], 1⟩, none)
    ∧ (read_command (List.replicate COMMAND_LENGTH NUL) "!4294967295\n".toList).map
          (fun l => (token_strings l.input_buffer l.tokens, l.token_count))
        = some (["!4294967295".toList], 1)
    ∧ (read_command (List.replicate COMMAND_LENGTH NUL) "!4294967295\n".toList).bind
          (fun l => main_recall ⟨"ls".toList :: List.replicate 9 [], 1⟩ l) = none
    ∧ (main_iteration sample_env ⟨some "ls\n".toList, true⟩
          (initial_state (List.replicate COMMAND_LENGTH NUL) "/tmp".toList)).bind
            (fun o => main_iteration sample_env ⟨some "!4294967295\n".toList, true⟩ o.state)
        = none := by
  decide

/-- C18: at the failing input, a fresh shell that reads a line of 1022 letters
and then `!0 &`, the first line is recorded at index 0; the second line recalls
it with the background flag still set from the invocation line, so
`add_to_history` has to build a line of 1024 characters, one more than
`COMMAND_LENGTH - 1`, and overflows `str`. -/
theorem recall_with_amp_overflows :
    (spec_line [long_line] true).length = COMMAND_LENGTH
    ∧ ∃ o, main_iteration sample_env ⟨some (long_line ++ ['\n']), true⟩
          (initial_state (List.replicate COMMAND_LENGTH NUL) "/tmp".toList) = some o
        ∧ o.state.store = ⟨long_line :: List.replicate 9 [], 1⟩
        ∧ (∃ l r, read_command o.state.input_buffer "!0 &\n".toList = some l
            ∧ main_recall o.state.store l = some r
            ∧ token_strings r.1.input_buffer r.1.tokens = [long_line]
            ∧ r.1.in_background = true)
        ∧ add_to_history o.state.store [long_line] true = none
        ∧ main_iteration sample_env ⟨some "!0 &\n".toList, true⟩ o.state = none := by
  obtain ⟨o, ho, hstore, hbuf, hcwd, _⟩ :=
    long_line_recorded (List.replicate COMMAND_LENGTH NUL) (List.length_replicate _ _)
  have h2 := recall_long_line_with_amp o.state hstore hbuf hcwd
  exact ⟨long_line_with_amp, o, ho, hstore, h2.1, add_long_line_with_amp _, h2.2⟩

end Shell
